import Mathlib

/-!
# RS-232 serial calculator (`Calc.c`)

A shallow embedding of the line assembler (`UART0_ISR`), the line
parser / evaluator / formatter (`process_input`), the decoder
(`str_to_ulong`), `send_string` and `clear_buffer`, followed by the
properties proved about them.

Conventions of the embedding

* A byte is a natural number (`unsigned char`, 0..255).  Plain `char` is the
  signed 8-bit type of the C51 compiler; `schar` is the conversion that takes
  place when a byte is read through a `char` lvalue.
* `unsigned long` is 32 bits wide; every `unsigned long` operation that can
  leave the range is reduced modulo `2 ^ 32` explicitly.
* The 8-bit counters (`i`, `idx`, `j`, `len1`, `len2`, `op_pos`, `end`,
  `BufIndex`) are bounded by the buffer length or by the number of decimal
  digits of a 32-bit value, so they never wrap and are plain naturals.
* Memory is flat: an array is the function from an offset to the byte stored
  at `base + offset`.  Offsets past the declared size of an array address the
  bytes that follow it (the 8051 has no memory protection).
* A `for` loop whose bound is fixed on entry is a fold over `List.range`;
  the two `while` loops whose trip count depends on data (`digit_loop`,
  `send_string`) take a fuel argument and return `none` when it runs out.
* The busy waits on the transmitter flag `TI0` are not modelled: the
  transmitter is assumed to become ready; what is modelled is the sequence of
  bytes written to `SBUF0`.
-/

namespace Calc

/-- The macro `BUFFER_SIZE`. -/
def BUFFER_SIZE : Nat := 32

/-- One past the largest `unsigned long`: `0xFFFFFFFF + 1`. -/
def ULONG_MOD : Nat := 4294967296

/-- Flat memory seen from a base address: offset to byte. -/
abbrev Mem := Nat → Nat

/-- The store `m[i] = v`. -/
def wr (m : Mem) (i v : Nat) : Mem := fun k => if k = i then v else m k

/-- Pointer arithmetic `p + n`. -/
def shift (m : Mem) (n : Nat) : Mem := fun k => m (n + k)

/-- A string literal in memory: its characters followed by NUL. -/
def cstr (l : List Nat) : Mem := fun k => l.getD k 0

/-- The first `n` bytes found at a base address. -/
def rd (m : Mem) (n : Nat) : List Nat := (List.range n).map m

/-- Reading a byte through a `char` lvalue (signed, 8 bits). -/
def schar (b : Nat) : Int := if b < 128 then (b : Int) else (b : Int) - 256

/-- The globals `Buffer`, `BufIndex` and `BufReady`. -/
structure State where
  Buffer : Mem
  BufIndex : Nat
  BufReady : Bool

/-- The state at reset: `BufIndex = 0`, `BufReady = 0`, `Buffer` zeroed. -/
def State.init : State := ⟨fun _ => 0, 0, false⟩

/-- The filter of `UART0_ISR` (lines 79-82). -/
def accepted (c : Nat) : Prop :=
  (48 ≤ c ∧ c ≤ 57) ∨ c = 43 ∨ c = 45 ∨ c = 42 ∨ c = 47 ∨ c = 61 ∨ c = 13

instance (c : Nat) : Decidable (accepted c) := by unfold accepted; infer_instance

/-- One run of `UART0_ISR` with `RI0` set and the byte `c` in `SBUF0`:
the new globals and the bytes written to `SBUF0`. -/
def UART0_ISR (s : State) (c : Nat) : State × List Nat :=
  if accepted c then
    if s.BufIndex < BUFFER_SIZE - 1 then
      let s1 : State := ⟨wr s.Buffer s.BufIndex c, s.BufIndex + 1, s.BufReady⟩
      let s2 : State := if c = 61 ∨ c = 13 then ⟨s1.Buffer, s1.BufIndex, true⟩ else s1
      (s2, [c])
    else (s, [])
  else (s, [])

/-- The receive interrupt taken once for each byte of a stream, in order:
the final globals and everything echoed. -/
def assemble (s : State) : List Nat → State × List Nat
  | [] => (s, [])
  | c :: cs =>
    let r := UART0_ISR s c
    let r2 := assemble r.1 cs
    (r2.1, r.2 ++ r2.2)

/-- The function `clear_buffer`: `BufIndex = 0` and `memset(Buffer, 0, 32)`. -/
def clear_buffer (s : State) : State :=
  ⟨fun k => if k < BUFFER_SIZE then 0 else s.Buffer k, 0, s.BufReady⟩

/-- The body of the loop of `str_to_ulong`: `v = v * 10 + (str[i] - '0')`,
the difference taken in `int` and converted to `unsigned long`. -/
def str_to_ulong_step (str : Mem) (v i : Nat) : Nat :=
  ((((v * 10 : Nat) : Int) + (schar (str i) - 48)) % (ULONG_MOD : Int)).toNat

/-- The function `str_to_ulong`. -/
def str_to_ulong (str : Mem) (length : Nat) : Nat :=
  (List.range length).foldl (str_to_ulong_step str) 0

/-- The function `send_string`: the bytes written to `SBUF0`, up to the NUL. -/
def send_string : Nat → Mem → Option (List Nat)
  | 0, _ => none
  | fuel + 1, s =>
    if s 0 ≠ 0 then (send_string fuel (shift s 1)).map (fun l => s 0 :: l)
    else some []

/-- The loop `while (tmp > 0)` of lines 212-215. -/
def digit_loop : Nat → Nat → Nat → Mem → Option (Nat × Mem)
  | 0, _, _, _ => none
  | fuel + 1, tmp, idx, out =>
    if tmp > 0 then digit_loop fuel (tmp / 10) (idx + 1) (wr out idx (48 + tmp % 10))
    else some (idx, out)

/-- The body of the reversal loop, lines 218-220. -/
def swap_out (idx : Nat) (out : Mem) (j : Nat) : Mem :=
  let t := out j
  let out1 := wr out j (out (idx - 1 - j))
  wr out1 (idx - 1 - j) t

/-- The reversal loop `for (j = 0; j < idx/2; j++)`. -/
def reverse_loop (idx : Nat) (out : Mem) : Mem :=
  (List.range (idx / 2)).foldl (swap_out idx) out

/-- Lines 208-222: the digits of `result` in `out[0 .. idx)`. -/
def format_digits (fuel result : Nat) (out : Mem) : Option (Nat × Mem) :=
  if result = 0 then some (1, wr out 0 48)
  else
    match digit_loop fuel result 0 out with
    | none => none
    | some (idx, out1) => some (idx, reverse_loop idx out1)

/-- Lines 208-225: the digits, then CR, LF and NUL.  The index returned is
the one of the NUL, the last store into `out`; `out` is declared with 12
slots, offsets 0 to 11. -/
def format_result (fuel result : Nat) (out : Mem) : Option (Nat × Mem) :=
  match format_digits fuel result out with
  | none => none
  | some (idx, out1) =>
    some (idx + 2, wr (wr (wr out1 idx 13) (idx + 1) 10) (idx + 2) 0)

/-- The locals of `process_input` that the scan of lines 141-159 updates. -/
structure Scan where
  op_pos : Nat
  op_found : Bool
  len1 : Nat
  len2 : Nat
  op : Int
deriving DecidableEq

/-- The body of the scan loop; `none` is the `return` of line 157. -/
def scan_body (Buffer : Mem) (i : Nat) (st : Scan) : Option Scan :=
  let ch := schar (Buffer i)
  if ch ≥ 48 ∧ ch ≤ 57 then
    if ¬ st.op_found then some { st with len1 := st.len1 + 1 }
    else some { st with len2 := st.len2 + 1 }
  else if (ch = 43 ∨ ch = 45 ∨ ch = 42 ∨ ch = 47) ∧ ¬ st.op_found ∧ i > 0 then
    some { st with op_found := true, op_pos := i, op := ch }
  else none

/-- The scan loop `for (i = 0; i < end; i++)`; `op0` is what the
uninitialised local `op` holds on entry. -/
def scan (Buffer : Mem) (end_ : Nat) (op0 : Int) : Option Scan :=
  (List.range end_).foldl (fun st i => st.bind (scan_body Buffer i))
    (some ⟨0, false, 0, 0, op0⟩)

/-- Lines 127-165: every check that precedes the conversion; `none` stands
for each of the four `send_string("ERROR\r\n"); return;` exits. -/
def validate (s : State) (op0 : Int) : Option Scan :=
  if s.BufIndex = 0 then none
  else if s.Buffer (s.BufIndex - 1) = 13 ∨ s.Buffer (s.BufIndex - 1) = 61 then
    match scan s.Buffer (s.BufIndex - 1) op0 with
    | none => none
    | some st => if ¬ st.op_found ∨ st.len1 = 0 ∨ st.len2 = 0 then none else some st
  else none

/-- The literal `"ERROR\r\n"`. -/
def ERROR_MSG : List Nat := [69, 82, 82, 79, 82, 13, 10]

/-- The literal `"OVERFLOW\r\n"`. -/
def OVERFLOW_MSG : List Nat := [79, 86, 69, 82, 70, 76, 79, 87, 13, 10]

/-- The `switch (op)` of lines 172-205: `ok result` on `break`, and
`error msg` where the code sends `msg` and returns. -/
def calculate (op : Int) (num1 num2 : Nat) : Except (List Nat) Nat :=
  if op = 43 then
    if num1 > 4294967295 - num2 then .error OVERFLOW_MSG
    else .ok ((num1 + num2) % ULONG_MOD)
  else if op = 45 then
    if num1 < num2 then .error OVERFLOW_MSG
    else .ok ((num1 + ULONG_MOD - num2) % ULONG_MOD)
  else if op = 42 then
    if num2 ≠ 0 ∧ num1 > 4294967295 / num2 then .error OVERFLOW_MSG
    else .ok ((num1 * num2) % ULONG_MOD)
  else if op = 47 then
    if num2 = 0 then .error ERROR_MSG
    else .ok (num1 / num2)
  else .error ERROR_MSG

/-- The first operand as line 168 decodes it. -/
def operand1 (s : State) (st : Scan) : Nat := str_to_ulong s.Buffer st.op_pos

/-- The second operand as line 169 decodes it. -/
def operand2 (s : State) (st : Scan) : Nat :=
  str_to_ulong (shift s.Buffer (st.op_pos + 1)) st.len2

/-- What the uninitialised locals `op` and `out` hold on entry. -/
structure Uninit where
  op : Int
  out : Mem

/-- The function `process_input`: the bytes it writes to `SBUF0`. -/
def process_input (fuel : Nat) (u : Uninit) (s : State) : Option (List Nat) :=
  match validate s u.op with
  | none => send_string fuel (cstr ERROR_MSG)
  | some st =>
    match calculate st.op (operand1 s st) (operand2 s st) with
    | .error msg => send_string fuel (cstr msg)
    | .ok result =>
      match format_result fuel result u.out with
      | none => none
      | some (_, out) => send_string fuel out

/-- One iteration of the `while (1)` loop of `main` (lines 29-33): the new
globals and the bytes transmitted. -/
def main_pass (fuel : Nat) (u : Uninit) (s : State) : Option (State × List Nat) :=
  if s.BufReady then
    match process_input fuel u s with
    | none => none
    | some tx => some (⟨(clear_buffer s).Buffer, (clear_buffer s).BufIndex, false⟩, tx)
  else some (s, [])

/-- A line placed at the start of `Buffer`, with `BufIndex` its length. -/
def lineState (line : List Nat) (ready : Bool) : State :=
  ⟨cstr line, line.length, ready⟩

/-- Decimal digit characters. -/
def isDigit (c : Nat) : Prop := 48 ≤ c ∧ c ≤ 57

instance (c : Nat) : Decidable (isDigit c) := by unfold isDigit; infer_instance

/-- The four operator characters. -/
def isOp (c : Nat) : Prop := c = 43 ∨ c = 45 ∨ c = 42 ∨ c = 47

instance (c : Nat) : Decidable (isOp c) := by unfold isOp; infer_instance

/-- The terminators `=` and CR. -/
def isTerm (c : Nat) : Prop := c = 61 ∨ c = 13

instance (c : Nat) : Decidable (isTerm c) := by unfold isTerm; infer_instance

/-- The body grammar of a line, `[0-9]+[+\-*/][0-9]+`: digits, one operator,
digits. -/
def IsBody (body : List Nat) : Prop :=
  ∃ d1 op d2, body = d1 ++ op :: d2 ∧ d1 ≠ [] ∧ (∀ c ∈ d1, isDigit c) ∧ isOp op ∧
    d2 ≠ [] ∧ (∀ c ∈ d2, isDigit c)

/-- The parts `d1 op d2 t` of a line of the wire format: two non-empty digit
runs around one operator, then one terminator. -/
def IsLine (d1 : List Nat) (op : Nat) (d2 : List Nat) (t : Nat) : Prop :=
  d1 ≠ [] ∧ (∀ c ∈ d1, isDigit c) ∧ isOp op ∧ d2 ≠ [] ∧ (∀ c ∈ d2, isDigit c) ∧ isTerm t

/-- The minimal decimal representation of `v` in ASCII, most significant digit
first, `"0"` for zero. -/
def decimal (v : Nat) : List Nat :=
  if v = 0 then [48] else ((Nat.digits 10 v).reverse).map (fun d => 48 + d)

/-- The response the specification prescribes for operator `op` applied to
operands `a` and `b`, in exact arithmetic over the naturals (sections 4.4,
4.5 and 7): the minimal decimal result, or the fault token, then CR LF. -/
def expected_response (op a b : Nat) : List Nat :=
  if op = 43 then
    if a + b ≤ 4294967295 then decimal (a + b) ++ [13, 10] else OVERFLOW_MSG
  else if op = 45 then
    if b ≤ a then decimal (a - b) ++ [13, 10] else OVERFLOW_MSG
  else if op = 42 then
    if a * b ≤ 4294967295 then decimal (a * b) ++ [13, 10] else OVERFLOW_MSG
  else if op = 47 then
    if b = 0 then ERROR_MSG else decimal (a / b) ++ [13, 10]
  else ERROR_MSG

/-- Lines 31-32 of `main`: `clear_buffer()` followed by `BufReady = 0`. -/
def cleanup (s : State) : State :=
  ⟨(clear_buffer s).Buffer, (clear_buffer s).BufIndex, false⟩

/-- What changes the globals: the receive interrupt for a byte `c`, or one
completed iteration of the loop of `main`. -/
inductive Event where
  | rx (c : Nat)
  | pass

/-- The globals after one event; an iteration of the main loop that finds
`BufReady` clear changes nothing. -/
def step (s : State) : Event → State
  | .rx c => (UART0_ISR s c).1
  | .pass => if s.BufReady then cleanup s else s

/-- The globals after a sequence of events. -/
def run (s : State) (es : List Event) : State := es.foldl step s

/-- The test that sends `process_input` into the `else` of lines 135-138:
the line is not empty and its last byte is neither CR nor `=`. -/
def missing_terminator (s : State) : Prop :=
  s.BufIndex ≠ 0 ∧ ¬ (s.Buffer (s.BufIndex - 1) = 13 ∨ s.Buffer (s.BufIndex - 1) = 61)

instance (s : State) : Decidable (missing_terminator s) := by
  unfold missing_terminator; infer_instance

/-- The decimal value of a string of digit characters, most significant
digit first. -/
def decimal_value (cs : List Nat) : Nat :=
  Nat.ofDigits 10 ((cs.reverse).map (fun c => c - 48))

/-- The data memory seen from the first byte of `out` when `process_input`
returns, next to the bytes it transmits.  The stores of lines 208-225 are
the only stores of `process_input` through a computed address; each exit
taken before them leaves this memory as it was on entry.  Offsets 0 to 11
are the slots of `out`, offsets from 12 on the bytes that follow `out` in
data memory, whichever objects the linker has put there. -/
def process_input_out (fuel : Nat) (u : Uninit) (s : State) : Option Mem :=
  match validate s u.op with
  | none => some u.out
  | some st =>
    match calculate st.op (operand1 s st) (operand2 s st) with
    | .error _ => some u.out
    | .ok result =>
      match format_result fuel result u.out with
      | none => none
      | some (_, out) => some out

/-! ## Memory, strings and the formatter -/

theorem wr_same (m : Mem) (i v : Nat) : wr m i v i = v := by simp [wr]

theorem wr_other (m : Mem) (i v k : Nat) (h : k ≠ i) : wr m i v k = m k := by simp [wr, h]

theorem rd_length (m : Mem) (n : Nat) : (rd m n).length = n := by simp [rd]

theorem rd_getD (m : Mem) (n k : Nat) (h : k < n) : (rd m n).getD k 0 = m k := by
  simp [rd, List.getD_eq_getElem?_getD, h]

theorem send_string_eq (l : List Nat) : ∀ (fuel : Nat) (m : Mem),
    (∀ c ∈ l, c ≠ 0) → (∀ k, k < l.length → m k = l.getD k 0) → m l.length = 0 →
    l.length < fuel → send_string fuel m = some l := by
  induction l with
  | nil =>
    intro fuel m _ _ h0 hf
    cases fuel with
    | zero => simp at hf
    | succ f => simp [send_string] at h0 ⊢; exact h0
  | cons c cs ih =>
    intro fuel m hl hm h0 hf
    cases fuel with
    | zero => simp at hf
    | succ f =>
      have hc : m 0 = c := by simpa using hm 0 (by simp)
      have hne : c ≠ 0 := hl c (by simp)
      have hrec : send_string f (shift m 1) = some cs := by
        apply ih
        · intro x hx; exact hl x (by simp [hx])
        · intro k hk
          have := hm (k + 1) (by simpa using hk)
          simpa [shift, Nat.add_comm] using this
        · simpa [shift, Nat.add_comm] using h0
        · simpa using hf
      simp [send_string, hc, hne, hrec]

theorem digit_loop_spec : ∀ (fuel tmp idx : Nat) (out : Mem),
    (Nat.digits 10 tmp).length < fuel →
    ∃ out1, digit_loop fuel tmp idx out = some (idx + (Nat.digits 10 tmp).length, out1) ∧
      (∀ k, k < (Nat.digits 10 tmp).length →
        out1 (idx + k) = 48 + (Nat.digits 10 tmp).getD k 0) ∧
      (∀ k, (k < idx ∨ idx + (Nat.digits 10 tmp).length ≤ k) → out1 k = out k) := by
  intro fuel
  induction fuel with
  | zero => intro tmp idx out h; simp at h
  | succ f ih =>
    intro tmp idx out h
    by_cases ht : tmp = 0
    · subst ht
      refine ⟨out, by simp [digit_loop], by simp, by simp⟩
    · have hpos : 0 < tmp := Nat.pos_of_ne_zero ht
      have hd : Nat.digits 10 tmp = (tmp % 10) :: Nat.digits 10 (tmp / 10) :=
        Nat.digits_def' (by norm_num) hpos
      rw [hd] at h ⊢
      obtain ⟨out1, h1, h2, h3⟩ := ih (tmp / 10) (idx + 1) (wr out idx (48 + tmp % 10))
        (by simpa using h)
      refine ⟨out1, ?_, ?_, ?_⟩
      · simp only [digit_loop, gt_iff_lt, hpos, if_true, h1, List.length_cons]
        congr 2; omega
      · intro k hk
        cases k with
        | zero =>
          have := h3 idx (Or.inl (by omega))
          simpa [wr_same] using this
        | succ j =>
          have := h2 j (by simpa using hk)
          simpa [Nat.add_assoc, Nat.add_comm 1 j] using this
      · intro k hk
        have hk2 : k < idx + 1 ∨ idx + 1 + (Nat.digits 10 (tmp / 10)).length ≤ k ∨ k = idx := by
          simp only [List.length_cons] at hk; omega
        have hne : k ≠ idx := by
          simp only [List.length_cons] at hk; omega
        have := h3 k (by simp only [List.length_cons] at hk; omega)
        rw [this, wr_other _ _ _ _ hne]


theorem swap_out_apply (idx : Nat) (o : Mem) (j k : Nat) :
    swap_out idx o j k =
      if k = idx - 1 - j then o j else if k = j then o (idx - 1 - j) else o k := by
  simp [swap_out, wr]

theorem reverse_upto (idx : Nat) (out : Mem) : ∀ m, m ≤ idx / 2 →
    ∀ k, (List.range m).foldl (swap_out idx) out k =
      if k < m ∨ (idx - m ≤ k ∧ k < idx) then out (idx - 1 - k) else out k := by
  intro m
  induction m with
  | zero =>
    intro _ k
    have : ¬ (k < 0 ∨ (idx - 0 ≤ k ∧ k < idx)) := by omega
    rw [if_neg this]
    rfl
  | succ m ih =>
    intro hm k
    have hm2 : m ≤ idx / 2 := by omega
    rw [List.range_succ, List.foldl_append]
    simp only [List.foldl_cons, List.foldl_nil]
    rw [swap_out_apply, ih hm2, ih hm2, ih hm2]
    have h1 : ¬ (m < m ∨ (idx - m ≤ m ∧ m < idx)) := by omega
    have h2 : ¬ (idx - 1 - m < m ∨ (idx - m ≤ idx - 1 - m ∧ idx - 1 - m < idx)) := by omega
    rw [if_neg h1, if_neg h2]
    by_cases hk1 : k = idx - 1 - m
    · have : k < m + 1 ∨ (idx - (m + 1) ≤ k ∧ k < idx) := by omega
      rw [if_pos hk1, if_pos this]
      congr 1; omega
    · rw [if_neg hk1]
      by_cases hk2 : k = m
      · have : k < m + 1 ∨ (idx - (m + 1) ≤ k ∧ k < idx) := by omega
        rw [if_pos hk2, if_pos this]
        congr 1; omega
      · rw [if_neg hk2]
        by_cases hk3 : k < m ∨ (idx - m ≤ k ∧ k < idx)
        · have : k < m + 1 ∨ (idx - (m + 1) ≤ k ∧ k < idx) := by omega
          rw [if_pos hk3, if_pos this]
        · have : ¬ (k < m + 1 ∨ (idx - (m + 1) ≤ k ∧ k < idx)) := by omega
          rw [if_neg hk3, if_neg this]

theorem reverse_loop_apply (idx : Nat) (out : Mem) (k : Nat) :
    reverse_loop idx out k = if k < idx then out (idx - 1 - k) else out k := by
  unfold reverse_loop
  rw [reverse_upto idx out (idx / 2) (Nat.le_refl _) k]
  by_cases hk : k < idx
  · by_cases hk2 : k < idx / 2 ∨ (idx - idx / 2 ≤ k ∧ k < idx)
    · rw [if_pos hk2, if_pos hk]
    · rw [if_neg hk2, if_pos hk]
      congr 1; omega
  · have : ¬ (k < idx / 2 ∨ (idx - idx / 2 ≤ k ∧ k < idx)) := by omega
    rw [if_neg this, if_neg hk]

theorem decimal_length_pos (v : Nat) : 0 < (decimal v).length := by
  unfold decimal
  split
  · simp
  · rename_i h
    simp only [List.length_map, List.length_reverse]
    exact List.length_pos.mpr (by simpa [Nat.digits_eq_nil_iff_eq_zero] using h)

theorem format_digits_spec (fuel v : Nat) (out : Mem) (hf : (decimal v).length < fuel) :
    ∃ out1, format_digits fuel v out = some ((decimal v).length, out1) ∧
      rd out1 (decimal v).length = decimal v ∧
      (∀ k, (decimal v).length ≤ k → out1 k = out k) := by
  by_cases hv : v = 0
  · subst hv
    refine ⟨wr out 0 48, by simp [format_digits, decimal], by simp [decimal, rd, wr, List.range_succ], ?_⟩
    intro k hk
    simp [decimal] at hk
    exact wr_other _ _ _ _ (by omega)
  · have hlen : (decimal v).length = (Nat.digits 10 v).length := by simp [decimal, hv]
    obtain ⟨o1, h1, h2, h3⟩ := digit_loop_spec fuel v 0 out (by omega)
    refine ⟨reverse_loop (Nat.digits 10 v).length o1, ?_, ?_, ?_⟩
    · simp [format_digits, hv, h1, hlen]
    · apply List.ext_getElem
      · simp [rd]
      · intro n hn1 hn2
        have hn : n < (Nat.digits 10 v).length := by simpa [rd, hlen] using hn1
        simp only [rd, List.getElem_map, List.getElem_range, hlen, decimal, hv, if_false,
          List.getElem_reverse]
        rw [reverse_loop_apply, if_pos hn]
        have := h2 ((Nat.digits 10 v).length - 1 - n) (by omega)
        simp only [Nat.zero_add] at this
        rw [this, List.getD_eq_getElem _ _ (by omega)]
    · intro k hk
      rw [hlen] at hk
      rw [reverse_loop_apply, if_neg (by omega)]
      exact h3 k (Or.inr (by omega))


theorem schar_digit (c : Nat) (h : isDigit c) : schar c = (c : Int) := by
  unfold isDigit at h
  unfold schar
  rw [if_pos (by omega)]

theorem str_to_ulong_succ (str : Mem) (n : Nat) :
    str_to_ulong str (n + 1) = str_to_ulong_step str (str_to_ulong str n) n := by
  simp [str_to_ulong, List.range_succ, List.foldl_append]

theorem str_to_ulong_congr (a b : Mem) : ∀ n, (∀ k, k < n → a k = b k) →
    str_to_ulong a n = str_to_ulong b n := by
  intro n
  induction n with
  | zero => intro _; rfl
  | succ n ih =>
    intro h
    rw [str_to_ulong_succ, str_to_ulong_succ, ih (fun k hk => h k (by omega))]
    simp [str_to_ulong_step, h n (by omega)]

theorem str_to_ulong_step_digit (str : Mem) (v i : Nat) (h : isDigit (str i)) :
    str_to_ulong_step str v i = (v * 10 + (str i - 48)) % ULONG_MOD := by
  unfold str_to_ulong_step
  rw [schar_digit _ h]
  unfold isDigit at h
  unfold ULONG_MOD
  omega

/-- Decoding `n` digit characters gives their decimal value modulo `2 ^ 32`. -/
theorem str_to_ulong_digits (ds : List Nat) : ∀ (str : Mem),
    (∀ d ∈ ds, d < 10) → (∀ k, k < ds.length → str k = 48 + ds.getD k 0) →
    str_to_ulong str ds.length = Nat.ofDigits 10 ds.reverse % ULONG_MOD := by
  induction ds using List.reverseRecOn with
  | nil => intro str _ _; simp [str_to_ulong, ULONG_MOD]
  | append_singleton ds d ih =>
    intro str hd hm
    have hdl : d < 10 := hd d (by simp)
    have hlast : str ds.length = 48 + d := by
      have := hm ds.length (by simp)
      simpa [List.getD_eq_getElem?_getD] using this
    have hpre : str_to_ulong str ds.length = Nat.ofDigits 10 ds.reverse % ULONG_MOD := by
      apply ih
      · intro x hx; exact hd x (by simp [hx])
      · intro k hk
        have := hm k (by simp; omega)
        rw [this]
        simp [List.getD_eq_getElem?_getD, List.getElem?_append_left hk]
    have hdig : isDigit (str ds.length) := by rw [hlast]; unfold isDigit; omega
    rw [List.length_append, List.length_singleton, str_to_ulong_succ,
      str_to_ulong_step_digit _ _ _ hdig, hpre, hlast, List.reverse_append,
      List.reverse_singleton, List.singleton_append, Nat.ofDigits_cons]
    unfold ULONG_MOD
    omega

theorem decimal_eq_map (v : Nat) :
    ∃ ds : List Nat, decimal v = ds.map (fun d => 48 + d) ∧ (∀ d ∈ ds, d < 10) ∧
      Nat.ofDigits 10 ds.reverse = v := by
  by_cases hv : v = 0
  · subst hv
    exact ⟨[0], by simp [decimal], by simp, by simp [Nat.ofDigits]⟩
  · refine ⟨(Nat.digits 10 v).reverse, by simp [decimal, hv], ?_, ?_⟩
    · intro d hd
      exact Nat.digits_lt_base (by norm_num) (List.mem_reverse.mp hd)
    · rw [List.reverse_reverse, Nat.ofDigits_digits]

theorem decimal_length_le (v : Nat) (hv : v < ULONG_MOD) : (decimal v).length ≤ 10 := by
  by_cases h0 : v = 0
  · simp [decimal, h0]
  · have hlen : (decimal v).length = (Nat.digits 10 v).length := by simp [decimal, h0]
    rw [hlen]
    by_contra hc
    have h11 : 11 ≤ (Nat.digits 10 v).length := by omega
    have h1 : 10 ^ 11 ≤ 10 ^ (Nat.digits 10 v).length :=
      Nat.pow_le_pow_right (by norm_num) h11
    have h2 := Nat.base_pow_length_digits_le 10 v (by norm_num) h0
    unfold ULONG_MOD at hv
    norm_num at h1
    omega

/-- Decoding the bytes of `decimal v` gives `v` modulo `2 ^ 32`. -/
theorem str_to_ulong_decimal (str : Mem) (v : Nat)
    (hm : rd str (decimal v).length = decimal v) :
    str_to_ulong str (decimal v).length = v % ULONG_MOD := by
  obtain ⟨ds, h1, h2, h3⟩ := decimal_eq_map v
  have hl : (decimal v).length = ds.length := by rw [h1]; simp
  rw [hl, str_to_ulong_digits ds str h2, h3]
  intro k hk
  have := rd_getD str (decimal v).length k (by omega)
  rw [← this, hm, h1]
  simp [List.getD_eq_getElem?_getD, hk]

/-- C1. For every `v` in `[0, 2^32 - 1]`, the formatter of `process_input`
(lines 208-222, given enough fuel for its `while` loop) leaves a digit string
in `out[0 .. idx)`, and `str_to_ulong` over that whole string returns exactly
`v`. -/
theorem format_decode_roundtrip (v : Nat) (hv : v < ULONG_MOD) (fuel : Nat) (hf : 11 ≤ fuel)
    (out0 : Mem) :
    ∃ idx out, format_digits fuel v out0 = some (idx, out) ∧ str_to_ulong out idx = v := by
  have hlen := decimal_length_le v hv
  obtain ⟨out1, h1, h2, _⟩ := format_digits_spec fuel v out0 (by omega)
  refine ⟨_, out1, h1, ?_⟩
  rw [str_to_ulong_decimal out1 v h2]
  exact Nat.mod_eq_of_lt hv

theorem format_decode_roundtrip_witness :
    ∃ idx out, format_digits 11 4294967295 (fun _ => 0) = some (idx, out) ∧
      str_to_ulong out idx = 4294967295 :=
  format_decode_roundtrip 4294967295 (by decide) 11 (by decide) (fun _ => 0)


theorem schar_small (c : Nat) (h : c < 128) : schar c = (c : Int) := by
  unfold schar
  rw [if_pos h]

theorem rd_append (m : Mem) (a b : Nat) : rd m (a + b) = rd m a ++ rd (shift m a) b := by
  apply List.ext_getElem
  · simp [rd]
  · intro n h1 h2
    simp only [rd, List.getElem_map, List.getElem_range]
    by_cases hn : n < a
    · rw [List.getElem_append_left (by simpa using hn)]
      simp
    · rw [List.getElem_append_right (by simpa using hn)]
      simp only [List.getElem_map, List.getElem_range, List.length_map, List.length_range, shift]
      congr 1; omega

theorem rd_one (m : Mem) : rd m 1 = [m 0] := by simp [rd, List.range_succ]

theorem rd_eq_getD (m : Mem) (n : Nat) (l : List Nat) (h : rd m n = l) (k : Nat) (hk : k < n) :
    m k = l.getD k 0 := by
  rw [← h, rd_getD m n k hk]

theorem scan_succ (B : Mem) (n : Nat) (op0 : Int) :
    scan B (n + 1) op0 = (scan B n op0).bind (scan_body B n) := by
  simp [scan, List.range_succ, List.foldl_append]

theorem scan_body_digit (B : Mem) (i : Nat) (st : Scan) (h : isDigit (B i)) :
    scan_body B i st =
      some (if st.op_found = true then { st with len2 := st.len2 + 1 }
        else { st with len1 := st.len1 + 1 }) := by
  have h2 : schar (B i) ≥ 48 ∧ schar (B i) ≤ 57 := by
    rw [schar_digit _ h]; unfold isDigit at h; omega
  unfold scan_body
  simp only [h2, and_self, if_true]
  cases st.op_found <;> simp

theorem scan_body_op (B : Mem) (i : Nat) (st : Scan) (h : isOp (B i))
    (hf : st.op_found = false) (hi : 0 < i) :
    scan_body B i st = some { st with op_found := true, op_pos := i, op := (B i : Int) } := by
  have hs : schar (B i) = (B i : Int) := schar_small _ (by unfold isOp at h; omega)
  have h1 : ¬ ((B i : Int) ≥ 48 ∧ (B i : Int) ≤ 57) := by
    unfold isOp at h; omega
  have h2 : ((B i : Int) = 43 ∨ (B i : Int) = 45 ∨ (B i : Int) = 42 ∨ (B i : Int) = 47) ∧
      ¬ st.op_found = true ∧ i > 0 := by
    refine ⟨?_, by simp [hf], hi⟩
    unfold isOp at h; omega
  simp only [scan_body, hs]
  rw [if_neg h1, if_pos h2]

theorem scan_digits1 (B : Mem) (op0 : Int) : ∀ n, (∀ k, k < n → isDigit (B k)) →
    scan B n op0 = some ⟨0, false, n, 0, op0⟩ := by
  intro n
  induction n with
  | zero => intro _; rfl
  | succ n ih =>
    intro h
    rw [scan_succ, ih (fun k hk => h k (by omega))]
    simp [scan_body_digit B n _ (h n (by omega))]

theorem scan_digits2 (B : Mem) (op0 : Int) (p : Nat) (hp : 0 < p)
    (h1 : ∀ k, k < p → isDigit (B k)) (hop : isOp (B p)) :
    ∀ m, (∀ k, k < m → isDigit (B (p + 1 + k))) →
    scan B (p + 1 + m) op0 = some ⟨p, true, p, m, (B p : Int)⟩ := by
  intro m
  induction m with
  | zero =>
    intro _
    rw [Nat.add_zero, scan_succ, scan_digits1 B op0 p h1]
    simp only [Option.bind]
    rw [scan_body_op B p ⟨0, false, p, 0, op0⟩ hop rfl hp]
  | succ m ih =>
    intro h
    rw [← Nat.add_assoc, scan_succ, ih (fun k hk => h k (by omega))]
    simp [scan_body_digit B (p + 1 + m) _ (h m (by omega))]

theorem line_parts (s : State) (d1 : List Nat) (op : Nat) (d2 : List Nat) (t : Nat)
    (hb : rd s.Buffer s.BufIndex = d1 ++ op :: (d2 ++ [t])) :
    s.BufIndex = d1.length + 1 + d2.length + 1 ∧
    rd s.Buffer d1.length = d1 ∧ s.Buffer d1.length = op ∧
    rd (shift s.Buffer (d1.length + 1)) d2.length = d2 ∧
    s.Buffer (d1.length + 1 + d2.length) = t := by
  have hlen : s.BufIndex = d1.length + 1 + d2.length + 1 := by
    have := congrArg List.length hb
    simp [rd] at this
    omega
  rw [hlen, rd_append, rd_append, rd_append, rd_one, rd_one] at hb
  simp only [List.append_assoc, List.singleton_append] at hb
  have h1 := List.append_inj hb (by simp [rd])
  have h2 := List.cons.inj h1.2
  have h3 := List.append_inj h2.2 (by simp [rd])
  refine ⟨hlen, h1.1, ?_, h3.1, ?_⟩
  · simpa [shift] using h2.1
  · simpa [shift] using h3.2


theorem rd_mem (m : Mem) (n : Nat) (l : List Nat) (h : rd m n = l) (k : Nat) (hk : k < n) :
    m k ∈ l := by
  have hl : l.length = n := by rw [← h, rd_length]
  rw [rd_eq_getD m n l h k hk, List.getD_eq_getElem _ _ (by omega)]
  exact List.getElem_mem _

theorem validate_line (s : State) (op0 : Int) (d1 d2 : List Nat) (op t : Nat)
    (hline : IsLine d1 op d2 t)
    (hbuf : rd s.Buffer s.BufIndex = d1 ++ op :: (d2 ++ [t])) :
    validate s op0 = some ⟨d1.length, true, d1.length, d2.length, (op : Int)⟩ := by
  obtain ⟨hn1, hd1, hop, hn2, hd2, ht⟩ := hline
  unfold isTerm at ht
  obtain ⟨hlen, p1, p2, p3, p4⟩ := line_parts s d1 op d2 t hbuf
  have hp : 0 < d1.length := List.length_pos.mpr hn1
  have hq : 0 < d2.length := List.length_pos.mpr hn2
  have hscan := scan_digits2 s.Buffer op0 d1.length hp
    (fun k hk => hd1 _ (rd_mem _ _ _ p1 k hk)) (by rw [p2]; exact hop) d2.length
    (fun k hk => hd2 _ (rd_mem _ _ _ p3 k hk))
  have hidx : s.BufIndex - 1 = d1.length + 1 + d2.length := by omega
  have hne : s.BufIndex ≠ 0 := by omega
  have hterm : s.Buffer (s.BufIndex - 1) = 13 ∨ s.Buffer (s.BufIndex - 1) = 61 := by
    rw [hidx, p4]; omega
  unfold validate
  rw [if_neg hne, if_pos hterm, hidx, hscan, p2]
  simp [hn1, hn2]

theorem operand1_line (s : State) (st : Scan) (d1 : List Nat)
    (h : rd s.Buffer d1.length = d1) (hp : st.op_pos = d1.length) :
    operand1 s st = str_to_ulong (cstr d1) d1.length := by
  unfold operand1
  rw [hp]
  exact str_to_ulong_congr _ _ _ (fun k hk => rd_eq_getD _ _ _ h k hk)

theorem operand2_line (s : State) (st : Scan) (d1 d2 : List Nat)
    (h : rd (shift s.Buffer (d1.length + 1)) d2.length = d2) (hp : st.op_pos = d1.length)
    (hl : st.len2 = d2.length) :
    operand2 s st = str_to_ulong (cstr d2) d2.length := by
  unfold operand2
  rw [hp, hl]
  exact str_to_ulong_congr _ _ _ (fun k hk => rd_eq_getD _ _ _ h k hk)

theorem isOp_not_isDigit (c : Nat) (h : isOp c) : ¬ isDigit c := by
  unfold isOp at h; unfold isDigit; omega

/-- C6. For a line buffer of length at most 31 that holds digits, one
operator, digits and one terminator, the validation of `process_input`
succeeds; `op_pos` is the index of the operator, which is the only operator
character before the terminator; operand 1 is what `str_to_ulong` gives on
exactly the characters before that index, and operand 2 what it gives on
exactly the characters between that index and the terminator. -/
theorem validate_accepts (s : State) (op0 : Int) (d1 d2 : List Nat) (op t : Nat)
    (_hcap : s.BufIndex ≤ BUFFER_SIZE - 1) (hline : IsLine d1 op d2 t)
    (hbuf : rd s.Buffer s.BufIndex = d1 ++ op :: (d2 ++ [t])) :
    ∃ st, validate s op0 = some st ∧ st.op_pos = d1.length ∧ st.op = (op : Int) ∧
      s.Buffer st.op_pos = op ∧
      (∀ k, k < s.BufIndex - 1 → isOp (s.Buffer k) → k = st.op_pos) ∧
      operand1 s st = str_to_ulong (cstr d1) d1.length ∧
      operand2 s st = str_to_ulong (cstr d2) d2.length := by
  have hv := validate_line s op0 d1 d2 op t hline hbuf
  obtain ⟨hlen, p1, p2, p3, p4⟩ := line_parts s d1 op d2 t hbuf
  obtain ⟨_, hd1, _, _, hd2, _⟩ := hline
  refine ⟨_, hv, rfl, rfl, p2, ?_, operand1_line s _ d1 p1 rfl,
    operand2_line s _ d1 d2 p3 rfl rfl⟩
  intro k hk hop
  show k = d1.length
  by_contra hne
  apply isOp_not_isDigit _ hop
  by_cases hlt : k < d1.length
  · exact hd1 _ (rd_mem _ _ _ p1 k hlt)
  · have hk2 : k - (d1.length + 1) < d2.length := by omega
    have := hd2 _ (rd_mem _ _ _ p3 (k - (d1.length + 1)) hk2)
    have he : d1.length + 1 + (k - (d1.length + 1)) = k := by omega
    simpa [shift, he] using this

theorem validate_accepts_witness :
    ∃ st, validate (lineState [49, 50, 43, 55, 61] true) 0 = some st ∧ st.op_pos = 2 ∧
      st.op = 43 ∧ (lineState [49, 50, 43, 55, 61] true).Buffer st.op_pos = 43 ∧
      (∀ k, k < (lineState [49, 50, 43, 55, 61] true).BufIndex - 1 →
        isOp ((lineState [49, 50, 43, 55, 61] true).Buffer k) → k = st.op_pos) ∧
      operand1 (lineState [49, 50, 43, 55, 61] true) st = str_to_ulong (cstr [49, 50]) 2 ∧
      operand2 (lineState [49, 50, 43, 55, 61] true) st = str_to_ulong (cstr [55]) 1 :=
  validate_accepts (lineState [49, 50, 43, 55, 61] true) 0 [49, 50] [55] 43 61
    (by decide) (by unfold IsLine; decide) (by decide)


theorem send_cstr (l : List Nat) (fuel : Nat) (hl : ∀ c ∈ l, c ≠ 0) (hf : l.length < fuel) :
    send_string fuel (cstr l) = some l :=
  send_string_eq l fuel (cstr l) hl (fun _ _ => rfl)
    (by simp [cstr, List.getD_eq_default]) hf

theorem send_error (fuel : Nat) (hf : 8 ≤ fuel) :
    send_string fuel (cstr ERROR_MSG) = some ERROR_MSG :=
  send_cstr ERROR_MSG fuel (by decide) (by simp [ERROR_MSG]; omega)

theorem send_overflow (fuel : Nat) (hf : 11 ≤ fuel) :
    send_string fuel (cstr OVERFLOW_MSG) = some OVERFLOW_MSG :=
  send_cstr OVERFLOW_MSG fuel (by decide) (by simp [OVERFLOW_MSG]; omega)

theorem decimal_mem (v c : Nat) (h : c ∈ decimal v) : isDigit c := by
  obtain ⟨ds, h1, h2, _⟩ := decimal_eq_map v
  rw [h1, List.mem_map] at h
  obtain ⟨d, hd, rfl⟩ := h
  have := h2 d hd
  unfold isDigit; omega

theorem decimal_head (v : Nat) : ∃ c rest, decimal v = c :: rest ∧ isDigit c := by
  have hpos := decimal_length_pos v
  cases hd : decimal v with
  | nil => rw [hd] at hpos; simp at hpos
  | cons c rest => exact ⟨c, rest, rfl, decimal_mem v c (by rw [hd]; simp)⟩

theorem decimal_ne_overflow (v : Nat) : decimal v ++ [13, 10] ≠ OVERFLOW_MSG := by
  obtain ⟨c, rest, h, hc⟩ := decimal_head v
  rw [h]
  intro he
  have := (List.cons.inj he).1
  unfold isDigit at hc; omega

theorem decimal_ne_error (v : Nat) : decimal v ++ [13, 10] ≠ ERROR_MSG := by
  obtain ⟨c, rest, h, hc⟩ := decimal_head v
  rw [h]
  intro he
  have := (List.cons.inj he).1
  unfold isDigit at hc; omega

/-- The formatter followed by `send_string` transmits the decimal digits of
the result, CR and LF. -/
theorem format_send (fuel v : Nat) (hv : v < ULONG_MOD) (hf : 13 ≤ fuel) (out0 : Mem) :
    ∃ out, format_result fuel v out0 = some ((decimal v).length + 2, out) ∧
      send_string fuel out = some (decimal v ++ [13, 10]) := by
  have hlen := decimal_length_le v hv
  obtain ⟨out1, h1, h2, _⟩ := format_digits_spec fuel v out0 (by omega)
  refine ⟨wr (wr (wr out1 (decimal v).length 13) ((decimal v).length + 1) 10)
    ((decimal v).length + 2) 0, by simp [format_result, h1], ?_⟩
  apply send_string_eq
  · intro c hc
    rcases List.mem_append.mp hc with h | h
    · have := decimal_mem v c h
      unfold isDigit at this; omega
    · simp at h; omega
  · intro k hk
    simp only [List.length_append, List.length_cons, List.length_nil] at hk
    by_cases hk1 : k < (decimal v).length
    · rw [wr_other _ _ _ _ (by omega), wr_other _ _ _ _ (by omega), wr_other _ _ _ _ (by omega),
        List.getD_append _ _ _ _ hk1]
      exact rd_eq_getD _ _ _ h2 k hk1
    · rw [List.getD_append_right _ _ _ _ (by omega)]
      by_cases hk2 : k = (decimal v).length
      · rw [wr_other _ _ _ _ (by omega), wr_other _ _ _ _ (by omega), hk2, wr_same]
        simp
      · have hk3 : k = (decimal v).length + 1 := by omega
        rw [wr_other _ _ _ _ (by omega), hk3, wr_same]
        simp
  · simp only [List.length_append, List.length_cons, List.length_nil]
    exact wr_same _ _ _
  · simp only [List.length_append, List.length_cons, List.length_nil]
    omega

theorem str_to_ulong_lt (str : Mem) (n : Nat) : str_to_ulong str n < ULONG_MOD := by
  cases n with
  | zero => simp [str_to_ulong, ULONG_MOD]
  | succ n =>
    rw [str_to_ulong_succ]
    unfold str_to_ulong_step ULONG_MOD
    omega

theorem calculate_ok_lt (op : Int) (a b r : Nat) (ha : a < ULONG_MOD)
    (h : calculate op a b = .ok r) : r < ULONG_MOD := by
  unfold calculate at h
  have hm : ∀ x, x % ULONG_MOD < ULONG_MOD := fun x => Nat.mod_lt _ (by unfold ULONG_MOD; omega)
  split_ifs at h <;> first
    | (cases h; exact hm _)
    | (cases h; exact lt_of_le_of_lt (Nat.div_le_self _ _) ha)

/-- What `process_input` transmits once the validation has succeeded. -/
theorem process_input_valid (fuel : Nat) (hf : 13 ≤ fuel) (u : Uninit) (s : State) (st : Scan)
    (hv : validate s u.op = some st) :
    process_input fuel u s = some
      (match calculate st.op (operand1 s st) (operand2 s st) with
        | .error msg => msg
        | .ok r => decimal r ++ [13, 10]) := by
  unfold process_input
  rw [hv]
  simp only
  cases hc : calculate st.op (operand1 s st) (operand2 s st) with
  | error msg =>
    simp only
    have hmsg : msg = ERROR_MSG ∨ msg = OVERFLOW_MSG := by
      unfold calculate at hc
      split_ifs at hc <;> cases hc <;> simp
    rcases hmsg with rfl | rfl
    · exact send_error fuel (by omega)
    · exact send_overflow fuel (by omega)
  | ok r =>
    simp only
    have hr := calculate_ok_lt _ _ _ r (str_to_ulong_lt _ _) hc
    obtain ⟨out, h1, h2⟩ := format_send fuel r hr hf u.out
    rw [h1]
    exact h2

theorem process_input_invalid (fuel : Nat) (hf : 8 ≤ fuel) (u : Uninit) (s : State)
    (hv : validate s u.op = none) : process_input fuel u s = some ERROR_MSG := by
  unfold process_input
  rw [hv]
  exact send_error fuel hf


theorem calculate_mul (a b : Nat) :
    calculate 42 a b =
      if b ≠ 0 ∧ a > 4294967295 / b then .error OVERFLOW_MSG
      else .ok ((a * b) % ULONG_MOD) := by
  unfold calculate
  rw [if_neg (by decide), if_neg (by decide), if_pos rfl]

theorem calculate_add (a b : Nat) :
    calculate 43 a b =
      if a > 4294967295 - b then .error OVERFLOW_MSG else .ok ((a + b) % ULONG_MOD) := by
  unfold calculate
  rw [if_pos rfl]

theorem calculate_sub (a b : Nat) :
    calculate 45 a b =
      if a < b then .error OVERFLOW_MSG else .ok ((a + ULONG_MOD - b) % ULONG_MOD) := by
  unfold calculate
  rw [if_neg (by decide), if_pos rfl]

theorem calculate_div (a b : Nat) :
    calculate 47 a b = if b = 0 then .error ERROR_MSG else .ok (a / b) := by
  unfold calculate
  rw [if_neg (by decide), if_neg (by decide), if_neg (by decide), if_pos rfl]

theorem mul_guard_iff (a b : Nat) :
    (b ≠ 0 ∧ a > 4294967295 / b) ↔ 4294967295 < a * b := by
  by_cases hb : b = 0
  · subst hb; simp
  · have hpos : 0 < b := Nat.pos_of_ne_zero hb
    have := Nat.le_div_iff_mul_le hpos (x := a) (y := 4294967295)
    constructor
    · rintro ⟨_, h⟩
      by_contra hc
      have : a ≤ 4294967295 / b := this.mpr (by omega)
      omega
    · intro h
      refine ⟨hb, ?_⟩
      by_contra hc
      have : a * b ≤ 4294967295 := this.mp (by omega)
      omega

/-- C2. When the validation succeeds with operator `*` and the decoded
operands are `a` and `b` (both in `[0, 2^32 - 1]`, being results of
`str_to_ulong`), `process_input` transmits `OVERFLOW` exactly when the
product `a * b` over the naturals exceeds `2^32 - 1`, and otherwise it
transmits the decimal digits of exactly `a * b`, CR, LF. -/
theorem mul_overflow_exact (fuel : Nat) (hf : 13 ≤ fuel) (u : Uninit) (s : State) (st : Scan)
    (a b : Nat) (hv : validate s u.op = some st) (hop : st.op = 42)
    (ha : operand1 s st = a) (hb : operand2 s st = b) :
    (process_input fuel u s = some OVERFLOW_MSG ↔ 4294967295 < a * b) ∧
    (a * b ≤ 4294967295 → process_input fuel u s = some (decimal (a * b) ++ [13, 10])) := by
  rw [process_input_valid fuel hf u s st hv, hop, ha, hb, calculate_mul]
  by_cases h : 4294967295 < a * b
  · rw [if_pos ((mul_guard_iff a b).mpr h)]
    exact ⟨⟨fun _ => h, fun _ => rfl⟩, fun h2 => absurd h (by omega)⟩
  · rw [if_neg (fun hc => h ((mul_guard_iff a b).mp hc))]
    have hm : (a * b) % ULONG_MOD = a * b := Nat.mod_eq_of_lt (by unfold ULONG_MOD; omega)
    rw [hm]
    refine ⟨⟨fun he => ?_, fun h2 => absurd h2 h⟩, fun _ => rfl⟩
    exact absurd (Option.some.inj he) (decimal_ne_overflow _)

theorem mul_overflow_exact_witness :
    process_input 13 ⟨0, fun _ => 0⟩
      (lineState [49, 48, 48, 48, 48, 48, 42, 49, 48, 48, 48, 48, 48, 61] true)
      = some OVERFLOW_MSG :=
  (mul_overflow_exact 13 (by decide) ⟨0, fun _ => 0⟩
    (lineState [49, 48, 48, 48, 48, 48, 42, 49, 48, 48, 48, 48, 48, 61] true)
    ⟨6, true, 6, 6, 42⟩ 100000 100000 (by decide) rfl (by decide) (by decide)).1.mpr (by decide)

/-- C3. When the validation succeeds with operator `+` and the decoded
operands are `a` and `b`, `process_input` transmits `OVERFLOW` exactly when
`a + b` over the naturals exceeds `2^32 - 1`, and otherwise it transmits the
decimal digits of exactly `a + b`, CR, LF. -/
theorem add_overflow_exact (fuel : Nat) (hf : 13 ≤ fuel) (u : Uninit) (s : State) (st : Scan)
    (a b : Nat) (hv : validate s u.op = some st) (hop : st.op = 43)
    (ha : operand1 s st = a) (hb : operand2 s st = b) :
    (process_input fuel u s = some OVERFLOW_MSG ↔ 4294967295 < a + b) ∧
    (a + b ≤ 4294967295 → process_input fuel u s = some (decimal (a + b) ++ [13, 10])) := by
  have hb2 : b < ULONG_MOD := by rw [← hb]; exact str_to_ulong_lt _ _
  unfold ULONG_MOD at hb2
  rw [process_input_valid fuel hf u s st hv, hop, ha, hb, calculate_add]
  by_cases h : 4294967295 < a + b
  · rw [if_pos (by omega)]
    exact ⟨⟨fun _ => h, fun _ => rfl⟩, fun h2 => absurd h (by omega)⟩
  · rw [if_neg (by omega)]
    have hm : (a + b) % ULONG_MOD = a + b := Nat.mod_eq_of_lt (by unfold ULONG_MOD; omega)
    rw [hm]
    refine ⟨⟨fun he => ?_, fun h2 => absurd h2 h⟩, fun _ => rfl⟩
    exact absurd (Option.some.inj he) (decimal_ne_overflow _)

theorem add_overflow_exact_witness :
    process_input 13 ⟨0, fun _ => 0⟩
        (lineState [52, 50, 57, 52, 57, 54, 55, 50, 57, 53, 43, 49, 61] true)
        = some OVERFLOW_MSG ∧
      process_input 13 ⟨0, fun _ => 0⟩
        (lineState [52, 50, 57, 52, 57, 54, 55, 50, 57, 53, 43, 48, 61] true)
        = some [52, 50, 57, 52, 57, 54, 55, 50, 57, 53, 13, 10] :=
  ⟨(add_overflow_exact 13 (by decide) ⟨0, fun _ => 0⟩
      (lineState [52, 50, 57, 52, 57, 54, 55, 50, 57, 53, 43, 49, 61] true)
      ⟨10, true, 10, 1, 43⟩ 4294967295 1 (by decide) rfl (by decide) (by decide)).1.mpr
      (by decide),
    by
      have h := (add_overflow_exact 13 (by decide) ⟨0, fun _ => 0⟩
        (lineState [52, 50, 57, 52, 57, 54, 55, 50, 57, 53, 43, 48, 61] true)
        ⟨10, true, 10, 1, 43⟩ 4294967295 0 (by decide) rfl (by decide) (by decide)).2
        (by decide)
      rw [h]
      simp [decimal]⟩

/-- C4. When the validation succeeds with operator `-` and the decoded
operands are `a` and `b`, `process_input` transmits `OVERFLOW` exactly when
`a < b`, and otherwise it transmits the decimal digits of exactly `a - b`,
CR, LF; a wrapped difference is never transmitted. -/
theorem sub_overflow_exact (fuel : Nat) (hf : 13 ≤ fuel) (u : Uninit) (s : State) (st : Scan)
    (a b : Nat) (hv : validate s u.op = some st) (hop : st.op = 45)
    (ha : operand1 s st = a) (hb : operand2 s st = b) :
    (process_input fuel u s = some OVERFLOW_MSG ↔ a < b) ∧
    (b ≤ a → process_input fuel u s = some (decimal (a - b) ++ [13, 10])) := by
  have ha2 : a < ULONG_MOD := by rw [← ha]; exact str_to_ulong_lt _ _
  rw [process_input_valid fuel hf u s st hv, hop, ha, hb, calculate_sub]
  by_cases h : a < b
  · rw [if_pos h]
    exact ⟨⟨fun _ => h, fun _ => rfl⟩, fun h2 => absurd h (by omega)⟩
  · rw [if_neg h]
    have hm : (a + ULONG_MOD - b) % ULONG_MOD = a - b := by
      unfold ULONG_MOD at ha2 ⊢
      omega
    rw [hm]
    refine ⟨⟨fun he => ?_, fun h2 => absurd h2 h⟩, fun _ => rfl⟩
    exact absurd (Option.some.inj he) (decimal_ne_overflow _)

theorem sub_overflow_exact_witness :
    process_input 13 ⟨0, fun _ => 0⟩ (lineState [53, 45, 49, 48, 61] true)
      = some OVERFLOW_MSG :=
  (sub_overflow_exact 13 (by decide) ⟨0, fun _ => 0⟩ (lineState [53, 45, 49, 48, 61] true)
    ⟨1, true, 1, 2, 45⟩ 5 10 (by decide) rfl (by decide) (by decide)).1.mpr (by decide)

/-- C5. When the validation succeeds with operator `/` and the decoded
operands are `a` and `b`, `process_input` transmits `ERROR` exactly when
`b = 0` and never transmits `OVERFLOW`; when `b` is not zero it transmits
the decimal digits, CR, LF of the truncating quotient `q`, the number with
`b * q <= a < b * (q + 1)`. -/
theorem div_by_zero_exact (fuel : Nat) (hf : 13 ≤ fuel) (u : Uninit) (s : State) (st : Scan)
    (a b : Nat) (hv : validate s u.op = some st) (hop : st.op = 47)
    (ha : operand1 s st = a) (hb : operand2 s st = b) :
    (process_input fuel u s = some ERROR_MSG ↔ b = 0) ∧
    process_input fuel u s ≠ some OVERFLOW_MSG ∧
    (b ≠ 0 → ∃ q, b * q ≤ a ∧ a < b * (q + 1) ∧
      process_input fuel u s = some (decimal q ++ [13, 10])) := by
  rw [process_input_valid fuel hf u s st hv, hop, ha, hb, calculate_div]
  by_cases h : b = 0
  · rw [if_pos h]
    exact ⟨⟨fun _ => h, fun _ => rfl⟩, by decide, fun h2 => absurd h h2⟩
  · rw [if_neg h]
    simp only
    refine ⟨⟨fun he => ?_, fun h2 => absurd h2 h⟩, fun he => ?_, fun _ => ⟨a / b, ?_, ?_, rfl⟩⟩
    · exact absurd (Option.some.inj he) (decimal_ne_error _)
    · exact absurd (Option.some.inj he) (decimal_ne_overflow _)
    · exact Nat.mul_div_le a b
    · exact Nat.lt_mul_div_succ a (Nat.pos_of_ne_zero h)

theorem div_by_zero_exact_witness :
    process_input 13 ⟨0, fun _ => 0⟩ (lineState [53, 47, 48, 61] true) = some ERROR_MSG ∧
      ∃ q, 2 * q ≤ 7 ∧ 7 < 2 * (q + 1) ∧
        process_input 13 ⟨0, fun _ => 0⟩ (lineState [55, 47, 50, 61] true)
          = some (decimal q ++ [13, 10]) :=
  ⟨(div_by_zero_exact 13 (by decide) ⟨0, fun _ => 0⟩ (lineState [53, 47, 48, 61] true)
      ⟨1, true, 1, 1, 47⟩ 5 0 (by decide) rfl (by decide) (by decide)).1.mpr rfl,
    (div_by_zero_exact 13 (by decide) ⟨0, fun _ => 0⟩ (lineState [55, 47, 50, 61] true)
      ⟨1, true, 1, 1, 47⟩ 7 2 (by decide) rfl (by decide) (by decide)).2.2 (by decide)⟩


theorem schar_digit_iff (b : Nat) (hb : b < 256) :
    (schar b ≥ 48 ∧ schar b ≤ 57) ↔ isDigit b := by
  unfold schar isDigit
  split <;> omega

theorem schar_op_iff (b : Nat) (hb : b < 256) :
    (schar b = 43 ∨ schar b = 45 ∨ schar b = 42 ∨ schar b = 47) ↔ isOp b := by
  unfold schar isOp
  split <;> omega

theorem scan_body_some (B : Mem) (i : Nat) (st st2 : Scan) (hb : B i < 256)
    (h : scan_body B i st = some st2) :
    (isDigit (B i) ∧ st2 = (if st.op_found = true then { st with len2 := st.len2 + 1 }
        else { st with len1 := st.len1 + 1 })) ∨
    (isOp (B i) ∧ st.op_found = false ∧ 0 < i ∧
      st2 = { st with op_found := true, op_pos := i, op := (B i : Int) }) := by
  by_cases hd : isDigit (B i)
  · left
    rw [scan_body_digit B i st hd] at h
    exact ⟨hd, (Option.some.inj h).symm⟩
  · right
    have hnd : ¬ (schar (B i) ≥ 48 ∧ schar (B i) ≤ 57) :=
      fun hc => hd ((schar_digit_iff _ hb).mp hc)
    simp only [scan_body] at h
    rw [if_neg hnd] at h
    split at h
    · rename_i hc
      obtain ⟨h1, h2, h3⟩ := hc
      have hop : isOp (B i) := (schar_op_iff _ hb).mp h1
      have hf : st.op_found = false := by simpa using h2
      refine ⟨hop, hf, h3, ?_⟩
      rw [← Option.some.inj h, schar_small _ (by unfold isOp at hop; omega)]
    · cases h

theorem scan_inv (B : Mem) (op0 : Int) : ∀ (n : Nat) (st : Scan),
    (∀ k, k < n → B k < 256) → scan B n op0 = some st →
    (st.op_found = false ∧ st.len1 = n ∧ st.len2 = 0 ∧ ∀ k, k < n → isDigit (B k)) ∨
    (st.op_found = true ∧ st.op_pos = st.len1 ∧ 0 < st.len1 ∧ st.len1 + 1 + st.len2 = n ∧
      (∀ k, k < st.len1 → isDigit (B k)) ∧ isOp (B st.len1) ∧ st.op = (B st.len1 : Int) ∧
      ∀ k, k < st.len2 → isDigit (B (st.len1 + 1 + k))) := by
  intro n
  induction n with
  | zero =>
    intro st _ h
    left
    have : st = ⟨0, false, 0, 0, op0⟩ := (Option.some.inj h).symm
    subst this
    exact ⟨rfl, rfl, rfl, fun k hk => absurd hk (by omega)⟩
  | succ n ih =>
    intro st2 hb h
    rw [scan_succ] at h
    cases hs : scan B n op0 with
    | none => rw [hs] at h; cases h
    | some st =>
      rw [hs] at h
      have hbody : scan_body B n st = some st2 := h
      rcases scan_body_some B n st st2 (hb n (by omega)) hbody with ⟨hd, he⟩ | ⟨hop, hf, hn, he⟩
      · rcases ih st (fun k hk => hb k (by omega)) hs with
          ⟨i1, i2, i3, i4⟩ | ⟨i1, i2, i3, i4, i5, i6, i7, i8⟩
        · left
          rw [i1, if_neg Bool.false_ne_true] at he
          subst he
          show false = false ∧ st.len1 + 1 = n + 1 ∧ st.len2 = 0 ∧
            ∀ k, k < n + 1 → isDigit (B k)
          refine ⟨rfl, by omega, i3, ?_⟩
          intro k hk
          by_cases hkn : k = n
          · rw [hkn]; exact hd
          · exact i4 k (by omega)
        · right
          rw [i1, if_pos rfl] at he
          subst he
          show true = true ∧ st.op_pos = st.len1 ∧ 0 < st.len1 ∧
            st.len1 + 1 + (st.len2 + 1) = n + 1 ∧ (∀ k, k < st.len1 → isDigit (B k)) ∧
            isOp (B st.len1) ∧ st.op = (B st.len1 : Int) ∧
            ∀ k, k < st.len2 + 1 → isDigit (B (st.len1 + 1 + k))
          refine ⟨rfl, i2, i3, by omega, i5, i6, i7, ?_⟩
          intro k hk
          by_cases hkn : k = st.len2
          · have : st.len1 + 1 + k = n := by omega
            rw [this]; exact hd
          · exact i8 k (by omega)
      · rcases ih st (fun k hk => hb k (by omega)) hs with ⟨i1, i2, i3, i4⟩ | ⟨i1, _⟩
        · right
          subst he
          show true = true ∧ n = st.len1 ∧ 0 < st.len1 ∧ st.len1 + 1 + st.len2 = n + 1 ∧
            (∀ k, k < st.len1 → isDigit (B k)) ∧ isOp (B st.len1) ∧
            (B n : Int) = (B st.len1 : Int) ∧
            ∀ k, k < st.len2 → isDigit (B (st.len1 + 1 + k))
          rw [i2, i3]
          exact ⟨rfl, rfl, hn, by omega, i4, hop, rfl, fun k hk => absurd hk (by omega)⟩
        · rw [hf] at i1; cases i1

theorem validate_some_body (s : State) (op0 : Int) (st : Scan)
    (hb : ∀ k, k < s.BufIndex - 1 → s.Buffer k < 256)
    (h : validate s op0 = some st) : IsBody (rd s.Buffer (s.BufIndex - 1)) := by
  unfold validate at h
  split_ifs at h with h0 h1
  cases hs : scan s.Buffer (s.BufIndex - 1) op0 with
  | none => rw [hs] at h; cases h
  | some st2 =>
    rw [hs] at h
    simp only at h
    split_ifs at h with h2
    have h3 : st2.op_found = true ∧ st2.len1 ≠ 0 ∧ st2.len2 ≠ 0 := by
      refine ⟨?_, ?_, ?_⟩
      · by_contra hc; exact h2 (Or.inl hc)
      · intro hc; exact h2 (Or.inr (Or.inl hc))
      · intro hc; exact h2 (Or.inr (Or.inr hc))
    rcases scan_inv s.Buffer op0 _ st2 hb hs with ⟨i1, _⟩ | ⟨_, _, i3, i4, i5, i6, _, i8⟩
    · rw [h3.1] at i1; cases i1
    · refine ⟨rd s.Buffer st2.len1, s.Buffer st2.len1,
        rd (shift s.Buffer (st2.len1 + 1)) st2.len2, ?_, ?_, ?_, i6, ?_, ?_⟩
      · rw [← i4, rd_append, rd_append, rd_one]
        simp [shift]
      · intro hc
        have := congrArg List.length hc
        simp [rd] at this
        omega
      · intro c hc
        simp only [rd, List.mem_map, List.mem_range] at hc
        obtain ⟨k, hk, rfl⟩ := hc
        exact i5 k hk
      · intro hc
        have := congrArg List.length hc
        simp [rd] at this
        omega
      · intro c hc
        simp only [rd, List.mem_map, List.mem_range] at hc
        obtain ⟨k, hk, rfl⟩ := hc
        exact i8 k hk

/-- C7. For a line buffer that ends in a terminator and whose body before
the terminator is not digits, one operator, digits, the validation of
`process_input` fails, so no operand is decoded and no arithmetic is done,
and `process_input` transmits exactly `ERROR`, CR, LF. -/
theorem malformed_rejected (fuel : Nat) (hf : 8 ≤ fuel) (u : Uninit) (s : State)
    (body : List Nat) (t : Nat) (hbytes : ∀ c ∈ body, c < 256)
    (hbuf : rd s.Buffer s.BufIndex = body ++ [t]) (_ht : isTerm t)
    (hbad : ¬ IsBody body) :
    validate s u.op = none ∧ process_input fuel u s = some ERROR_MSG := by
  have hlen : s.BufIndex = body.length + 1 := by
    have := congrArg List.length hbuf
    simpa [rd] using this
  have hbody : rd s.Buffer (s.BufIndex - 1) = body := by
    rw [hlen, rd_append, rd_one] at hbuf
    rw [hlen, Nat.add_sub_cancel]
    exact (List.append_inj hbuf (by simp [rd])).1
  have hv : validate s u.op = none := by
    cases hc : validate s u.op with
    | none => rfl
    | some st =>
      exfalso
      apply hbad
      rw [← hbody]
      apply validate_some_body s u.op st _ hc
      intro k hk
      exact hbytes _ (rd_mem _ _ _ hbody k hk)
  exact ⟨hv, process_input_invalid fuel hf u s hv⟩


theorem malformed_rejected_witness :
    validate (lineState [43, 53, 61] true) 0 = none ∧
      process_input 8 ⟨0, fun _ => 0⟩ (lineState [43, 53, 61] true) = some ERROR_MSG :=
  malformed_rejected 8 (by decide) ⟨0, fun _ => 0⟩ (lineState [43, 53, 61] true) [43, 53] 61
    (by decide) (by decide) (by decide)
    (by
      rintro ⟨d1, op, d2, h, hn, hd, _⟩
      cases d1 with
      | nil => exact hn rfl
      | cons c cs =>
        have hc : 43 = c := (List.cons.inj h).1
        have := hd c (by simp)
        rw [← hc] at this
        exact absurd this (by decide))

theorem UART0_ISR_store (s : State) (c : Nat) (hc : accepted c)
    (hlt : s.BufIndex < BUFFER_SIZE - 1) :
    UART0_ISR s c =
      (⟨wr s.Buffer s.BufIndex c, s.BufIndex + 1, s.BufReady || decide (isTerm c)⟩, [c]) := by
  unfold UART0_ISR
  rw [if_pos hc, if_pos hlt]
  by_cases ht : c = 61 ∨ c = 13
  · simp [ht, isTerm]
  · simp [ht, isTerm]

theorem UART0_ISR_drop (s : State) (c : Nat) (h : ¬ accepted c ∨ ¬ s.BufIndex < BUFFER_SIZE - 1) :
    UART0_ISR s c = (s, []) := by
  unfold UART0_ISR
  by_cases hc : accepted c
  · rw [if_pos hc, if_neg (by tauto)]
  · rw [if_neg hc]

theorem assemble_fits (cs : List Nat) : ∀ (s : State), (∀ c ∈ cs, accepted c) →
    s.BufIndex + cs.length ≤ BUFFER_SIZE - 1 →
    (assemble s cs).2 = cs ∧
    (assemble s cs).1.BufIndex = s.BufIndex + cs.length ∧
    (assemble s cs).1.BufReady = (s.BufReady || cs.any (fun c => decide (isTerm c))) ∧
    ∀ k, (assemble s cs).1.Buffer k =
      if s.BufIndex ≤ k ∧ k < s.BufIndex + cs.length then cs.getD (k - s.BufIndex) 0
      else s.Buffer k := by
  induction cs with
  | nil =>
    intro s _ _
    refine ⟨rfl, rfl, by simp [assemble], ?_⟩
    intro k
    rw [if_neg (by simp)]
    rfl
  | cons c cs ih =>
    intro s hacc hlen
    simp only [List.length_cons] at hlen
    have hstep := UART0_ISR_store s c (hacc c (by simp)) (by omega)
    obtain ⟨h1, h2, h3, h4⟩ := ih (UART0_ISR s c).1 (fun x hx => hacc x (by simp [hx]))
      (by rw [hstep]; simp only; omega)
    simp only [assemble]
    refine ⟨by rw [h1, hstep]; rfl, by rw [h2, hstep]; simp only [List.length_cons]; omega,
      by rw [h3, hstep]; simp [Bool.or_assoc], ?_⟩
    intro k
    rw [h4 k, hstep]
    simp only [List.length_cons]
    by_cases hk : k = s.BufIndex
    · subst hk
      rw [if_neg (by omega), if_pos (by omega), wr_same]
      simp
    · by_cases hk2 : s.BufIndex + 1 ≤ k ∧ k < s.BufIndex + 1 + cs.length
      · rw [if_pos hk2, if_pos (by omega)]
        have : k - s.BufIndex = (k - (s.BufIndex + 1)) + 1 := by omega
        rw [this]
        simp
      · rw [if_neg hk2, if_neg (by omega), wr_other _ _ _ _ hk]

theorem assemble_line (cs : List Nat) (hacc : ∀ c ∈ cs, accepted c)
    (hlen : cs.length ≤ BUFFER_SIZE - 1) :
    (assemble State.init cs).2 = cs ∧
    rd (assemble State.init cs).1.Buffer (assemble State.init cs).1.BufIndex = cs ∧
    (assemble State.init cs).1.BufReady = cs.any (fun c => decide (isTerm c)) := by
  obtain ⟨h1, h2, h3, h4⟩ := assemble_fits cs State.init hacc (by simpa [State.init] using hlen)
  refine ⟨h1, ?_, by simpa [State.init] using h3⟩
  rw [h2]
  apply List.ext_getElem
  · simp [rd, State.init]
  · intro n hn1 hn2
    simp only [rd, List.getElem_map, List.getElem_range, h4]
    simp only [State.init, Nat.zero_le, Nat.zero_add, true_and, Nat.sub_zero]
    rw [if_pos hn2, List.getD_eq_getElem _ _ hn2]

theorem accepted_of_digit (c : Nat) (h : isDigit c) : accepted c := by
  unfold isDigit at h; unfold accepted; omega

theorem accepted_of_op (c : Nat) (h : isOp c) : accepted c := by
  unfold isOp at h; unfold accepted; omega

theorem accepted_of_term (c : Nat) (h : isTerm c) : accepted c := by
  unfold isTerm at h; unfold accepted; omega

theorem expected_add (a b : Nat) :
    expected_response 43 a b =
      if a + b ≤ 4294967295 then decimal (a + b) ++ [13, 10] else OVERFLOW_MSG := by
  unfold expected_response
  rw [if_pos rfl]

theorem expected_sub (a b : Nat) :
    expected_response 45 a b =
      if b ≤ a then decimal (a - b) ++ [13, 10] else OVERFLOW_MSG := by
  unfold expected_response
  rw [if_neg (by decide), if_pos rfl]

theorem expected_mul (a b : Nat) :
    expected_response 42 a b =
      if a * b ≤ 4294967295 then decimal (a * b) ++ [13, 10] else OVERFLOW_MSG := by
  unfold expected_response
  rw [if_neg (by decide), if_neg (by decide), if_pos rfl]

theorem expected_div (a b : Nat) :
    expected_response 47 a b =
      if b = 0 then ERROR_MSG else decimal (a / b) ++ [13, 10] := by
  unfold expected_response
  rw [if_neg (by decide), if_neg (by decide), if_neg (by decide), if_pos rfl]

/-- On operands below `2 ^ 32` the `switch` of `process_input`, followed by
the formatter, agrees with the response prescribed in exact arithmetic. -/
theorem calculate_expected (op a b : Nat) (hop : isOp op) (ha : a < ULONG_MOD)
    (hb : b < ULONG_MOD) :
    (match calculate (op : Int) a b with
      | .error msg => msg
      | .ok r => decimal r ++ [13, 10]) = expected_response op a b := by
  unfold ULONG_MOD at ha hb
  unfold isOp at hop
  rcases hop with rfl | rfl | rfl | rfl
  · show (match calculate 43 a b with
      | .error msg => msg
      | .ok r => decimal r ++ [13, 10]) = _
    rw [calculate_add, expected_add]
    by_cases h : a + b ≤ 4294967295
    · rw [if_neg (show ¬ (a > 4294967295 - b) by omega), if_pos h]
      have hm : (a + b) % ULONG_MOD = a + b := Nat.mod_eq_of_lt (by unfold ULONG_MOD; omega)
      rw [hm]
    · rw [if_pos (show a > 4294967295 - b by omega), if_neg h]
  · show (match calculate 45 a b with
      | .error msg => msg
      | .ok r => decimal r ++ [13, 10]) = _
    rw [calculate_sub, expected_sub]
    by_cases h : b ≤ a
    · rw [if_neg (show ¬ (a < b) by omega), if_pos h]
      have hm : (a + ULONG_MOD - b) % ULONG_MOD = a - b := by
        unfold ULONG_MOD; omega
      rw [hm]
    · rw [if_pos (show a < b by omega), if_neg h]
  · show (match calculate 42 a b with
      | .error msg => msg
      | .ok r => decimal r ++ [13, 10]) = _
    rw [calculate_mul, expected_mul]
    by_cases h : a * b ≤ 4294967295
    · rw [if_neg (fun hc => absurd ((mul_guard_iff a b).mp hc) (by omega)), if_pos h]
      have hm : (a * b) % ULONG_MOD = a * b := Nat.mod_eq_of_lt (by unfold ULONG_MOD; omega)
      rw [hm]
    · rw [if_pos ((mul_guard_iff a b).mpr (by omega)), if_neg h]
  · show (match calculate 47 a b with
      | .error msg => msg
      | .ok r => decimal r ++ [13, 10]) = _
    rw [calculate_div, expected_div]
    by_cases h : b = 0
    · rw [if_pos h, if_pos h]
    · rw [if_neg h, if_neg h]


theorem line_accepted (d1 d2 : List Nat) (op t : Nat) (hline : IsLine d1 op d2 t) :
    ∀ c ∈ d1 ++ op :: (d2 ++ [t]), accepted c := by
  obtain ⟨_, hd1, hop, _, hd2, ht⟩ := hline
  intro c hc
  simp only [List.mem_append, List.mem_cons, List.mem_singleton, List.not_mem_nil,
    or_false] at hc
  rcases hc with h | rfl | h | rfl
  · exact accepted_of_digit c (hd1 c h)
  · exact accepted_of_op c hop
  · exact accepted_of_digit c (hd2 c h)
  · exact accepted_of_term c ht

/-- C8. A line `d1 op d2 t` of at most 31 bytes, received byte by byte from
the reset state, is echoed unchanged and sets `BufReady`; `process_input`
then transmits the response prescribed for `op` applied to the decoded
operands: the minimal decimal result, or the fault token, then CR LF.  A
lone `=` is echoed and answered with `ERROR`, CR, LF. -/
theorem end_to_end (fuel : Nat) (hf : 13 ≤ fuel) (u : Uninit) (d1 d2 : List Nat) (op t : Nat)
    (hline : IsLine d1 op d2 t)
    (hlen : (d1 ++ op :: (d2 ++ [t])).length ≤ BUFFER_SIZE - 1) :
    (assemble State.init (d1 ++ op :: (d2 ++ [t]))).2 = d1 ++ op :: (d2 ++ [t]) ∧
    (assemble State.init (d1 ++ op :: (d2 ++ [t]))).1.BufReady = true ∧
    process_input fuel u (assemble State.init (d1 ++ op :: (d2 ++ [t]))).1 =
      some (expected_response op (str_to_ulong (cstr d1) d1.length)
        (str_to_ulong (cstr d2) d2.length)) ∧
    (assemble State.init [61]).2 = [61] ∧
    process_input fuel u (assemble State.init [61]).1 = some ERROR_MSG := by
  obtain ⟨h1, h2, h3⟩ := assemble_line _ (line_accepted d1 d2 op t hline) hlen
  have hv := validate_line (assemble State.init (d1 ++ op :: (d2 ++ [t]))).1 u.op d1 d2 op t
    hline h2
  obtain ⟨_, p1, _, p3, _⟩ := line_parts _ d1 op d2 t h2
  refine ⟨h1, ?_, ?_, rfl, ?_⟩
  · rw [h3]
    simp [hline.2.2.2.2.2]
  · rw [process_input_valid fuel hf u _ _ hv, operand1_line _ _ d1 p1 rfl,
      operand2_line _ _ d1 d2 p3 rfl rfl]
    exact congrArg some (calculate_expected op _ _ hline.2.2.1 (str_to_ulong_lt _ _)
      (str_to_ulong_lt _ _))
  · exact process_input_invalid fuel (by omega) u _ rfl

theorem end_to_end_witness :
    (assemble State.init [49, 50, 43, 55, 61]).2 = [49, 50, 43, 55, 61] ∧
      process_input 13 ⟨0, fun _ => 0⟩ (assemble State.init [49, 50, 43, 55, 61]).1
        = some [49, 57, 13, 10] ∧
      (assemble State.init [57, 47, 48, 61]).2 = [57, 47, 48, 61] ∧
      process_input 13 ⟨0, fun _ => 0⟩ (assemble State.init [57, 47, 48, 61]).1
        = some ERROR_MSG ∧
      (assemble State.init [61]).2 = [61] ∧
      process_input 13 ⟨0, fun _ => 0⟩ (assemble State.init [61]).1 = some ERROR_MSG := by
  have h1 := end_to_end 13 (by decide) ⟨0, fun _ => 0⟩ [49, 50] [55] 43 61
    (by unfold IsLine; decide) (by decide)
  have h2 := end_to_end 13 (by decide) ⟨0, fun _ => 0⟩ [57] [48] 47 61
    (by unfold IsLine; decide) (by decide)
  have e1 : str_to_ulong (cstr [49, 50]) 2 = 12 := by decide
  have e2 : str_to_ulong (cstr [55]) 1 = 7 := by decide
  have e3 : str_to_ulong (cstr [57]) 1 = 9 := by decide
  have e4 : str_to_ulong (cstr [48]) 1 = 0 := by decide
  have r1 : expected_response 43 12 7 = [49, 57, 13, 10] := by
    rw [expected_add]; simp [decimal]
  have r2 : expected_response 47 9 0 = ERROR_MSG := by
    rw [expected_div]; simp
  refine ⟨h1.1, ?_, h2.1, ?_, h1.2.2.2.1, h1.2.2.2.2⟩
  · have := h1.2.2.1
    simp only [List.length_cons, List.length_nil] at this
    rw [e1, e2, r1] at this
    exact this
  · have := h2.2.2.1
    simp only [List.length_cons, List.length_nil] at this
    rw [e3, e4, r2] at this
    exact this

set_option maxRecDepth 8000 in
/-- C9, as the claim states it, fails: with 31 bytes stored the terminator is
dropped, so 31 digits and `=` from the reset state leave `BufReady` clear. -/
theorem ready_not_set_when_full :
    (assemble State.init (List.replicate 31 49)).1.BufIndex = 31 ∧
      (UART0_ISR (assemble State.init (List.replicate 31 49)).1 61).1.BufReady = false ∧
      (assemble State.init (List.replicate 31 49 ++ [61])).1.BufReady = false := by
  decide

/-- C9, amended. In every state with fewer than 31 bytes stored, a received
`=` or CR is stored at `Buffer[BufIndex]` and sets `BufReady`; with 31 bytes
stored it is dropped and the globals keep their values.  A line of at most 30
digits followed by a terminator, received from the reset state, ends with
`BufReady` set. -/
theorem ready_set_below_capacity (s : State) (c : Nat) (hc : isTerm c) :
    (s.BufIndex < BUFFER_SIZE - 1 →
      (UART0_ISR s c).1.BufReady = true ∧ (UART0_ISR s c).1.Buffer s.BufIndex = c ∧
      (UART0_ISR s c).1.BufIndex = s.BufIndex + 1) ∧
    (s.BufIndex = BUFFER_SIZE - 1 → (UART0_ISR s c).1 = s) ∧
    (∀ ds : List Nat, (∀ d ∈ ds, isDigit d) → ds.length ≤ BUFFER_SIZE - 2 →
      (assemble State.init (ds ++ [c])).1.BufReady = true) := by
  refine ⟨fun hlt => ?_, fun hfull => ?_, fun ds hds hlen => ?_⟩
  · rw [UART0_ISR_store s c (accepted_of_term c hc) hlt]
    exact ⟨by simp [hc], wr_same _ _ _, rfl⟩
  · rw [UART0_ISR_drop s c (Or.inr (by omega))]
  · have hacc : ∀ x ∈ ds ++ [c], accepted x := by
      intro x hx
      rcases List.mem_append.mp hx with h | h
      · exact accepted_of_digit x (hds x h)
      · rw [List.mem_singleton.mp h]; exact accepted_of_term c hc
    obtain ⟨_, _, h3⟩ := assemble_line (ds ++ [c]) hacc
      (by simp only [List.length_append, List.length_singleton]; unfold BUFFER_SIZE at *; omega)
    rw [h3]
    simp [hc]

set_option maxRecDepth 8000 in
theorem ready_set_below_capacity_witness :
    (UART0_ISR (assemble State.init (List.replicate 30 49)).1 61).1.BufReady = true ∧
      (assemble State.init (List.replicate 30 49 ++ [13])).1.BufReady = true :=
  ⟨((ready_set_below_capacity (assemble State.init (List.replicate 30 49)).1 61
      (by decide)).1 (by decide)).1,
    (ready_set_below_capacity State.init 13 (by decide)).2.2 (List.replicate 30 49)
      (by decide) (by decide)⟩

set_option maxRecDepth 8000 in
/-- C10, as the claim states it, fails: with 31 bytes stored an accepted byte
is not echoed. -/
theorem no_echo_when_full :
    accepted 49 ∧ (assemble State.init (List.replicate 31 49)).1.BufIndex = 31 ∧
      (UART0_ISR (assemble State.init (List.replicate 31 49)).1 49).2 = [] := by
  decide

/-- C10, amended. In every state with fewer than 31 bytes stored, a received
byte of the accepted alphabet is transmitted back, exactly once; with 31
bytes stored nothing is transmitted; a byte outside the alphabet is never
answered with a transmission. -/
theorem echo_below_capacity (s : State) (c : Nat) :
    (accepted c → s.BufIndex < BUFFER_SIZE - 1 → (UART0_ISR s c).2 = [c]) ∧
    (accepted c → s.BufIndex = BUFFER_SIZE - 1 → (UART0_ISR s c).2 = []) ∧
    (¬ accepted c → (UART0_ISR s c).2 = []) := by
  refine ⟨fun hc hlt => ?_, fun _ hfull => ?_, fun hc => ?_⟩
  · rw [UART0_ISR_store s c hc hlt]
  · rw [UART0_ISR_drop s c (Or.inr (by omega))]
  · rw [UART0_ISR_drop s c (Or.inl hc)]

set_option maxRecDepth 8000 in
theorem echo_below_capacity_witness :
    (UART0_ISR State.init 43).2 = [43] ∧
      (UART0_ISR (assemble State.init (List.replicate 31 49)).1 43).2 = [] ∧
      (UART0_ISR State.init 97).2 = [] :=
  ⟨(echo_below_capacity State.init 43).1 (by decide) (by decide),
    (echo_below_capacity (assemble State.init (List.replicate 31 49)).1 43).2.1 (by decide)
      (by decide),
    (echo_below_capacity State.init 97).2.2 (by decide)⟩

/-! ## The line assembler over streams -/

theorem assemble_append (cs ds : List Nat) : ∀ s : State,
    assemble s (cs ++ ds) =
      ((assemble (assemble s cs).1 ds).1, (assemble s cs).2 ++ (assemble (assemble s cs).1 ds).2) := by
  induction cs with
  | nil => intro s; simp [assemble]
  | cons c cs ih =>
    intro s
    rw [List.cons_append]
    simp only [assemble]
    rw [ih]
    simp only [List.append_assoc]

theorem assemble_snoc (s : State) (cs : List Nat) (c : Nat) :
    (assemble s (cs ++ [c])).1 = (UART0_ISR (assemble s cs).1 c).1 := by
  rw [assemble_append]
  simp [assemble]

theorem assemble_filter (cs : List Nat) : ∀ s : State,
    assemble s (cs.filter (fun c => decide (accepted c))) = assemble s cs := by
  induction cs with
  | nil => intro s; rfl
  | cons c cs ih =>
    intro s
    by_cases hc : accepted c
    · rw [List.filter_cons_of_pos (by simpa using hc)]
      simp only [assemble, ih]
    · rw [List.filter_cons_of_neg (by simpa using hc)]
      simp only [assemble, ih, UART0_ISR_drop s c (Or.inl hc), List.nil_append]

/-- C11. A byte outside the accepted alphabet leaves `Buffer`, `BufIndex` and
`BufReady` as they are and nothing is transmitted; hence assembling a byte
stream gives the same final globals and the same echo as assembling the
stream with every such byte removed. -/
theorem rejected_bytes_invisible (s : State) (c : Nat) (cs : List Nat) :
    (¬ accepted c → UART0_ISR s c = (s, [])) ∧
    assemble s cs = assemble s (cs.filter (fun x => decide (accepted x))) :=
  ⟨fun hc => UART0_ISR_drop s c (Or.inl hc), (assemble_filter cs s).symm⟩

theorem rejected_bytes_invisible_witness :
    UART0_ISR (lineState [49, 50] false) 97 = (lineState [49, 50] false, []) ∧
      assemble State.init [49, 97, 50, 43, 32, 55, 61] =
        assemble State.init ([49, 97, 50, 43, 32, 55, 61].filter (fun x => decide (accepted x))) :=
  ⟨(rejected_bytes_invisible (lineState [49, 50] false) 97 []).1 (by decide),
    (rejected_bytes_invisible State.init 97 [49, 97, 50, 43, 32, 55, 61]).2⟩

theorem assemble_full (cs : List Nat) (s : State) (hfull : ¬ s.BufIndex < BUFFER_SIZE - 1) :
    assemble s cs = (s, []) := by
  induction cs with
  | nil => rfl
  | cons c cs ih =>
    simp only [assemble, UART0_ISR_drop s c (Or.inr hfull), ih, List.append_nil]

/-- C20. With `BufIndex = 31` every received byte, `=` and CR included,
leaves `Buffer`, `BufIndex` and `BufReady` unchanged and nothing is
transmitted; so no sequence of received bytes changes the globals, and if
`BufReady` is clear it stays clear. -/
theorem full_buffer_absorbing (s : State) (hfull : s.BufIndex = BUFFER_SIZE - 1) :
    (∀ c, UART0_ISR s c = (s, [])) ∧
    (∀ cs, assemble s cs = (s, [])) ∧
    (s.BufReady = false → ∀ cs, (assemble s cs).1.BufReady = false) := by
  have hn : ¬ s.BufIndex < BUFFER_SIZE - 1 := by omega
  refine ⟨fun c => UART0_ISR_drop s c (Or.inr hn), fun cs => assemble_full cs s hn, ?_⟩
  intro hr cs
  rw [assemble_full cs s hn]
  exact hr

set_option maxRecDepth 8000 in
theorem full_buffer_absorbing_witness :
    UART0_ISR (assemble State.init (List.replicate 31 49)).1 61 =
        ((assemble State.init (List.replicate 31 49)).1, []) ∧
      (assemble (assemble State.init (List.replicate 31 49)).1 [61, 13, 49]).1.BufReady = false :=
  ⟨(full_buffer_absorbing (assemble State.init (List.replicate 31 49)).1 (by decide)).1 61,
    (full_buffer_absorbing (assemble State.init (List.replicate 31 49)).1 (by decide)).2.2
      (by decide) [61, 13, 49]⟩

/-! ## Invariants of the globals -/

theorem run_snoc (s : State) (es : List Event) (e : Event) :
    run s (es ++ [e]) = step (run s es) e := by
  simp [run, List.foldl_append]

theorem UART0_ISR_cases (s : State) (c : Nat) :
    (accepted c ∧ s.BufIndex < BUFFER_SIZE - 1 ∧
      UART0_ISR s c =
        (⟨wr s.Buffer s.BufIndex c, s.BufIndex + 1, s.BufReady || decide (isTerm c)⟩, [c])) ∨
    UART0_ISR s c = (s, []) := by
  by_cases h : accepted c ∧ s.BufIndex < BUFFER_SIZE - 1
  · exact Or.inl ⟨h.1, h.2, UART0_ISR_store s c h.1 h.2⟩
  · exact Or.inr (UART0_ISR_drop s c (by tauto))

theorem run_invariant (es : List Event) :
    (run State.init es).BufIndex ≤ BUFFER_SIZE - 1 ∧
    (∀ k, k < (run State.init es).BufIndex → accepted ((run State.init es).Buffer k)) ∧
    (∀ k, (run State.init es).BufIndex ≤ k → (run State.init es).Buffer k = 0) := by
  induction es using List.reverseRecOn with
  | nil => exact ⟨Nat.zero_le _, fun k hk => absurd hk (Nat.not_lt_zero k), fun _ _ => rfl⟩
  | append_singleton es e ih =>
    obtain ⟨i1, i2, i3⟩ := ih
    rw [run_snoc]
    cases e with
    | rx c =>
      show (UART0_ISR (run State.init es) c).1.BufIndex ≤ BUFFER_SIZE - 1 ∧
        (∀ k, k < (UART0_ISR (run State.init es) c).1.BufIndex →
          accepted ((UART0_ISR (run State.init es) c).1.Buffer k)) ∧
        (∀ k, (UART0_ISR (run State.init es) c).1.BufIndex ≤ k →
          (UART0_ISR (run State.init es) c).1.Buffer k = 0)
      rcases UART0_ISR_cases (run State.init es) c with ⟨hc, hlt, he⟩ | he
      · rw [he]
        refine ⟨by show (run State.init es).BufIndex + 1 ≤ BUFFER_SIZE - 1; omega, ?_, ?_⟩
        · intro k hk
          have hk2 : k < (run State.init es).BufIndex + 1 := hk
          show accepted (wr (run State.init es).Buffer (run State.init es).BufIndex c k)
          by_cases hkn : k = (run State.init es).BufIndex
          · rw [hkn, wr_same]; exact hc
          · rw [wr_other _ _ _ _ hkn]; exact i2 k (by omega)
        · intro k hk
          have hk2 : (run State.init es).BufIndex + 1 ≤ k := hk
          show wr (run State.init es).Buffer (run State.init es).BufIndex c k = 0
          rw [wr_other _ _ _ _ (by omega)]
          exact i3 k (by omega)
      · rw [he]
        exact ⟨i1, i2, i3⟩
    | pass =>
      have hstep : step (run State.init es) Event.pass =
          if (run State.init es).BufReady = true then cleanup (run State.init es)
          else run State.init es := rfl
      rw [hstep]
      by_cases hr : (run State.init es).BufReady = true
      · rw [if_pos hr]
        refine ⟨Nat.zero_le _, fun k hk => absurd hk (Nat.not_lt_zero k), ?_⟩
        intro k _
        show (if k < BUFFER_SIZE then 0 else (run State.init es).Buffer k) = 0
        by_cases hk : k < BUFFER_SIZE
        · rw [if_pos hk]
        · rw [if_neg hk]
          exact i3 k (by unfold BUFFER_SIZE at *; omega)
      · rw [if_neg hr]
        exact ⟨i1, i2, i3⟩

/-- C12. In every state reached from reset by receive interrupts and
completed main-loop passes, in any order, `BufIndex <= 31`, each of the
first `BufIndex` bytes of `Buffer` is in the accepted alphabet, and
`Buffer[31]` still holds the zero it had at reset; a receive interrupt never
changes `Buffer[31]`, and a byte that arrives with `BufIndex = 31` changes
neither the length nor any byte of the buffer. -/
theorem buffer_invariant (es : List Event) (c : Nat) :
    (run State.init es).BufIndex ≤ BUFFER_SIZE - 1 ∧
    (∀ k, k < (run State.init es).BufIndex → accepted ((run State.init es).Buffer k)) ∧
    (run State.init es).Buffer (BUFFER_SIZE - 1) = 0 ∧
    (UART0_ISR (run State.init es) c).1.Buffer (BUFFER_SIZE - 1) =
      (run State.init es).Buffer (BUFFER_SIZE - 1) ∧
    ((run State.init es).BufIndex = BUFFER_SIZE - 1 →
      (UART0_ISR (run State.init es) c).1 = run State.init es) := by
  obtain ⟨i1, i2, i3⟩ := run_invariant es
  refine ⟨i1, i2, i3 _ i1, ?_, ?_⟩
  · rcases UART0_ISR_cases (run State.init es) c with ⟨_, hlt, he⟩ | he
    · rw [he]
      exact wr_other _ _ _ _ (by omega)
    · rw [he]
  · intro hfull
    rw [UART0_ISR_drop _ c (Or.inr (by omega))]

set_option maxRecDepth 8000 in
theorem buffer_invariant_witness :
    (run State.init ((List.replicate 31 49).map Event.rx)).BufIndex = BUFFER_SIZE - 1 ∧
      (UART0_ISR (run State.init ((List.replicate 31 49).map Event.rx)) 50).1 =
        run State.init ((List.replicate 31 49).map Event.rx) :=
  ⟨by decide,
    (buffer_invariant ((List.replicate 31 49).map Event.rx) 50).2.2.2.2 (by decide)⟩

/-! ## The two codecs -/

theorem decimal_value_decimal (v : Nat) : decimal_value (decimal v) = v := by
  obtain ⟨ds, h1, _, h3⟩ := decimal_eq_map v
  unfold decimal_value
  rw [h1, ← List.map_reverse, List.map_map]
  have : ((fun c => c - 48) ∘ fun d => 48 + d) = (id : Nat → Nat) := by
    funext d
    simp
  rw [this, List.map_id, h3]

theorem decimal_leading (v : Nat) (h : (decimal v).head? = some 48) : v = 0 := by
  by_contra hv
  have hne : Nat.digits 10 v ≠ [] := Nat.digits_ne_nil_iff_ne_zero.mpr hv
  have hlast := Nat.getLast_digit_ne_zero 10 hv
  unfold decimal at h
  rw [if_neg hv, List.head?_map, List.head?_reverse, List.getLast?_eq_getLast _ hne] at h
  simp only [Option.map_some', Option.some.injEq] at h
  omega

theorem rd_head (m : Mem) (n : Nat) (hn : 0 < n) : (rd m n).head? = some (m 0) := by
  cases n with
  | zero => omega
  | succ n =>
    have h := rd_append m 1 n
    rw [Nat.add_comm 1 n, rd_one] at h
    rw [h]
    rfl

/-- C13. For every `v` in `[0, 2^32 - 1]` the formatter of `process_input`
(lines 208-222) leaves in `out[0 .. idx)` a string that is not empty, has at
most 10 characters, all of them decimal digits, whose value read most
significant digit first is `v`; its first character is `0` only when
`v = 0`, and then the string is the single character `0`. -/
theorem format_digits_minimal (v : Nat) (hv : v < ULONG_MOD) (fuel : Nat) (hf : 11 ≤ fuel)
    (out0 : Mem) :
    ∃ idx out, format_digits fuel v out0 = some (idx, out) ∧ 1 ≤ idx ∧ idx ≤ 10 ∧
      (∀ k, k < idx → isDigit (out k)) ∧ decimal_value (rd out idx) = v ∧
      (out 0 = 48 → v = 0) ∧ (v = 0 → rd out idx = [48]) := by
  have hlen := decimal_length_le v hv
  have hpos := decimal_length_pos v
  obtain ⟨out1, h1, h2, _⟩ := format_digits_spec fuel v out0 (by omega)
  refine ⟨_, out1, h1, hpos, hlen, ?_, ?_, ?_, ?_⟩
  · intro k hk
    exact decimal_mem v _ (rd_mem _ _ _ h2 k hk)
  · rw [h2, decimal_value_decimal]
  · intro h0
    apply decimal_leading
    rw [← h2, rd_head _ _ hpos, h0]
  · intro h0
    rw [h2, h0]
    rfl

theorem format_digits_minimal_witness :
    ∃ idx out, format_digits 11 1000000000 (fun _ => 0) = some (idx, out) ∧ 1 ≤ idx ∧
      idx ≤ 10 ∧ (∀ k, k < idx → isDigit (out k)) ∧ decimal_value (rd out idx) = 1000000000 ∧
      (out 0 = 48 → 1000000000 = 0) ∧ (1000000000 = 0 → rd out idx = [48]) :=
  format_digits_minimal 1000000000 (by decide) 11 (by decide) (fun _ => 0)

/-- C14. On a string of 1 to 31 decimal digit characters (leading zeros
allowed) `str_to_ulong`, given the string and its length, returns the
decimal value of the string reduced modulo `2 ^ 32`: the value itself when
it is below `2 ^ 32`, and the wrapped value otherwise, an ordinary result
with no fault attached. -/
theorem str_to_ulong_wraps (str : Mem) (cs : List Nat) (hd : ∀ c ∈ cs, isDigit c)
    (_h1 : 1 ≤ cs.length) (_h31 : cs.length ≤ BUFFER_SIZE - 1)
    (hstr : rd str cs.length = cs) :
    str_to_ulong str cs.length = decimal_value cs % ULONG_MOD ∧
    (decimal_value cs < ULONG_MOD → str_to_ulong str cs.length = decimal_value cs) ∧
    (ULONG_MOD ≤ decimal_value cs →
      str_to_ulong str cs.length = decimal_value cs % ULONG_MOD ∧
      str_to_ulong str cs.length ≠ decimal_value cs) := by
  have hmain : str_to_ulong str cs.length = decimal_value cs % ULONG_MOD := by
    have h := str_to_ulong_digits (cs.map (fun c => c - 48)) str
      (by
        intro d hdm
        obtain ⟨c, hc, rfl⟩ := List.mem_map.mp hdm
        have := hd c hc
        unfold isDigit at this
        omega)
      (by
        intro k hk
        rw [List.length_map] at hk
        have hk1 := rd_eq_getD str cs.length cs hstr k hk
        have hk2 := hd _ (rd_mem str cs.length cs hstr k hk)
        unfold isDigit at hk2
        have e1 : cs.getD k 0 = cs[k] := List.getD_eq_getElem _ _ hk
        have e2 : (cs.map (fun c => c - 48)).getD k 0 = cs[k] - 48 := by
          rw [List.getD_eq_getElem _ _ (by simpa using hk), List.getElem_map]
        rw [hk1, e1] at hk2
        rw [hk1, e2, e1]
        omega)
    rw [List.length_map] at h
    rw [h, ← List.map_reverse]
    rfl
  refine ⟨hmain, fun hlt => ?_, fun hge => ⟨hmain, ?_⟩⟩
  · rw [hmain, Nat.mod_eq_of_lt hlt]
  · have := str_to_ulong_lt str cs.length
    omega

theorem str_to_ulong_wraps_witness :
    str_to_ulong (cstr [52, 50, 57, 52, 57, 54, 55, 50, 57, 54]) 10 =
        decimal_value [52, 50, 57, 52, 57, 54, 55, 50, 57, 54] % ULONG_MOD ∧
      str_to_ulong (cstr [52, 50, 57, 52, 57, 54, 55, 50, 57, 54]) 10 = 0 ∧
      str_to_ulong (cstr [48, 48, 55]) 3 = decimal_value [48, 48, 55] :=
  ⟨(str_to_ulong_wraps (cstr [52, 50, 57, 52, 57, 54, 55, 50, 57, 54])
      [52, 50, 57, 52, 57, 54, 55, 50, 57, 54] (by decide) (by decide) (by decide)
      (by decide)).1,
    by decide,
    (str_to_ulong_wraps (cstr [48, 48, 55]) [48, 48, 55] (by decide) (by decide) (by decide)
      (by decide)).2.1 (by decide)⟩

/-! ## The response of `process_input` -/

theorem calculate_error_msg (op : Int) (a b : Nat) (msg : List Nat)
    (h : calculate op a b = .error msg) : msg = ERROR_MSG ∨ msg = OVERFLOW_MSG := by
  unfold calculate at h
  split_ifs at h <;> cases h <;> simp

/-- Whatever the globals hold, `process_input` terminates and transmits
`ERROR`, `OVERFLOW` or the minimal decimal digits of a 32-bit value, each
followed by CR LF. -/
theorem process_input_shape (fuel : Nat) (hf : 13 ≤ fuel) (u : Uninit) (s : State) :
    ∃ tx, process_input fuel u s = some tx ∧
      (tx = ERROR_MSG ∨ tx = OVERFLOW_MSG ∨
        ∃ v, v < ULONG_MOD ∧ tx = decimal v ++ [13, 10]) := by
  cases hv : validate s u.op with
  | none => exact ⟨ERROR_MSG, process_input_invalid fuel (by omega) u s hv, Or.inl rfl⟩
  | some st =>
    refine ⟨_, process_input_valid fuel hf u s st hv, ?_⟩
    cases hc : calculate st.op (operand1 s st) (operand2 s st) with
    | error msg =>
      rcases calculate_error_msg _ _ _ _ hc with h | h
      · exact Or.inl h
      · exact Or.inr (Or.inl h)
    | ok r =>
      exact Or.inr (Or.inr ⟨r, calculate_ok_lt _ _ _ r (str_to_ulong_lt _ _) hc, rfl⟩)

/-- C15. For every content of the buffer and every length from 0 to 31, one
call of `process_input` transmits exactly one line: `ERROR`, `OVERFLOW`, or
a non-empty string of decimal digits that begins with `0` only when it is
the string `0`; the line ends with CR LF. -/
theorem one_response_line (fuel : Nat) (hf : 13 ≤ fuel) (u : Uninit) (s : State)
    (_hlen : s.BufIndex ≤ BUFFER_SIZE - 1) :
    ∃ tx, process_input fuel u s = some tx ∧
      (tx = ERROR_MSG ∨ tx = OVERFLOW_MSG ∨
        ∃ ds, tx = ds ++ [13, 10] ∧ ds ≠ [] ∧ (∀ c ∈ ds, isDigit c) ∧
          (ds.head? = some 48 → ds = [48])) := by
  obtain ⟨tx, h1, h2⟩ := process_input_shape fuel hf u s
  refine ⟨tx, h1, ?_⟩
  rcases h2 with h | h | ⟨v, _, h⟩
  · exact Or.inl h
  · exact Or.inr (Or.inl h)
  · refine Or.inr (Or.inr ⟨decimal v, h, ?_, decimal_mem v, ?_⟩)
    · exact List.ne_nil_of_length_pos (decimal_length_pos v)
    · intro h0
      rw [decimal_leading v h0]
      rfl

theorem one_response_line_witness :
    ∃ tx, process_input 13 ⟨0, fun _ => 0⟩ (lineState [49, 97, 61] false) = some tx ∧
      (tx = ERROR_MSG ∨ tx = OVERFLOW_MSG ∨
        ∃ ds, tx = ds ++ [13, 10] ∧ ds ≠ [] ∧ (∀ c ∈ ds, isDigit c) ∧
          (ds.head? = some 48 → ds = [48])) :=
  one_response_line 13 (by decide) ⟨0, fun _ => 0⟩ (lineState [49, 97, 61] false) (by decide)

/-- The cleanup of the main loop is unconditional.  When `BufReady` is set,
one iteration of the main loop transmits what `process_input` transmits on
the globals it finds, whichever of a number, `ERROR` or `OVERFLOW` that is,
and ends with `BufIndex = 0`, the 32 bytes of `Buffer` zero and `BufReady`
clear.  `main_pass` runs `clear_buffer` on the globals `process_input` was
called with; what the stores of `process_input` do to data memory is the
subject of `process_input_stores`. -/
theorem main_pass_resets (fuel : Nat) (hf : 13 ≤ fuel) (u : Uninit) (s : State)
    (hr : s.BufReady = true) :
    ∃ tx, process_input fuel u s = some tx ∧
      (tx = ERROR_MSG ∨ tx = OVERFLOW_MSG ∨ ∃ v, v < ULONG_MOD ∧ tx = decimal v ++ [13, 10]) ∧
      main_pass fuel u s = some (cleanup s, tx) ∧
      (cleanup s).BufIndex = 0 ∧ (∀ k, k < BUFFER_SIZE → (cleanup s).Buffer k = 0) ∧
      (cleanup s).BufReady = false := by
  obtain ⟨tx, h1, h2⟩ := process_input_shape fuel hf u s
  refine ⟨tx, h1, h2, ?_, rfl, ?_, rfl⟩
  · unfold main_pass
    rw [if_pos hr, h1]
    rfl
  · intro k hk
    show (if k < BUFFER_SIZE then 0 else s.Buffer k) = 0
    rw [if_pos hk]

theorem main_pass_resets_witness :
    ∃ tx, process_input 13 ⟨0, fun _ => 0⟩ (lineState [57, 47, 48, 61] true) = some tx ∧
      (tx = ERROR_MSG ∨ tx = OVERFLOW_MSG ∨ ∃ v, v < ULONG_MOD ∧ tx = decimal v ++ [13, 10]) ∧
      main_pass 13 ⟨0, fun _ => 0⟩ (lineState [57, 47, 48, 61] true) =
        some (cleanup (lineState [57, 47, 48, 61] true), tx) ∧
      (cleanup (lineState [57, 47, 48, 61] true)).BufIndex = 0 ∧
      (∀ k, k < BUFFER_SIZE → (cleanup (lineState [57, 47, 48, 61] true)).Buffer k = 0) ∧
      (cleanup (lineState [57, 47, 48, 61] true)).BufReady = false :=
  main_pass_resets 13 (by decide) ⟨0, fun _ => 0⟩ (lineState [57, 47, 48, 61] true) rfl

/-! ## The stores into `out` -/

theorem decimal_length_ten (v : Nat) (hv : v < ULONG_MOD) :
    (decimal v).length = 10 ↔ 1000000000 ≤ v := by
  have hle := decimal_length_le v hv
  by_cases h0 : v = 0
  · subst h0
    simp [decimal]
  · have hlen : (decimal v).length = (Nat.digits 10 v).length := by simp [decimal, h0]
    have h1 : v < 10 ^ (Nat.digits 10 v).length := Nat.lt_base_pow_length_digits (by norm_num)
    have h2 := Nat.base_pow_length_digits_le 10 v (by norm_num) h0
    rw [hlen] at hle ⊢
    constructor
    · intro h
      rw [h] at h2
      norm_num at h2
      omega
    · intro h
      by_contra hc
      have h9 : (Nat.digits 10 v).length ≤ 9 := by omega
      have := Nat.pow_le_pow_right (show 0 < 10 by norm_num) h9
      norm_num at this
      omega

/-- The stores of lines 208-225 go to `out[0 .. idx]`, where `idx`, the
index of the NUL, is the number of digits plus 2: at most 12, and 12 exactly
for the results of ten digits. -/
theorem format_result_stores (fuel v : Nat) (hv : v < ULONG_MOD) (hf : 13 ≤ fuel) (out0 : Mem) :
    ∃ idx out, format_result fuel v out0 = some (idx, out) ∧ out idx = 0 ∧
      out (idx - 1) = 10 ∧ idx ≤ 12 ∧ (idx = 12 ↔ 1000000000 ≤ v) ∧
      ∀ k, idx < k → out k = out0 k := by
  have hlen := decimal_length_le v hv
  have hten := decimal_length_ten v hv
  obtain ⟨out1, h1, _, h3⟩ := format_digits_spec fuel v out0 (by omega)
  refine ⟨(decimal v).length + 2,
    wr (wr (wr out1 (decimal v).length 13) ((decimal v).length + 1) 10)
      ((decimal v).length + 2) 0, by simp [format_result, h1], wr_same _ _ _, ?_, by omega,
    by omega, ?_⟩
  · rw [wr_other _ _ _ _ (by omega), show (decimal v).length + 2 - 1 = (decimal v).length + 1 by omega,
      wr_same]
  · intro k hk
    rw [wr_other _ _ _ _ (by omega), wr_other _ _ _ _ (by omega), wr_other _ _ _ _ (by omega)]
    exact h3 k (by omega)

/-- C17 fails on the code: for the result 4294967295 (the line
`4294967295+0=`) the ten digits fill `out[0 .. 9]`, CR goes to `out[10]`, LF
to `out[11]` and the NUL is stored at offset 12, one past the 12 slots of
`out`; the byte found there before, 7 here, is overwritten. -/
theorem nul_stored_past_out :
    (format_result 13 4294967295 (fun _ => 7)).map (fun r => (r.1, r.2 10, r.2 11, r.2 12)) =
        some (12, 13, 10, 0) ∧
      validate (lineState [52, 50, 57, 52, 57, 54, 55, 50, 57, 53, 43, 48, 61] true) 0 =
        some ⟨10, true, 10, 1, 43⟩ ∧
      operand1 (lineState [52, 50, 57, 52, 57, 54, 55, 50, 57, 53, 43, 48, 61] true)
        ⟨10, true, 10, 1, 43⟩ = 4294967295 ∧
      operand2 (lineState [52, 50, 57, 52, 57, 54, 55, 50, 57, 53, 43, 48, 61] true)
        ⟨10, true, 10, 1, 43⟩ = 0 ∧
      (calculate 43 4294967295 0).toOption = some 4294967295 := by
  decide

/-! ## The terminator and the Ready Signal -/

theorem missing_terminator_rejected (s : State) (op0 : Int) (h : missing_terminator s) :
    validate s op0 = none := by
  unfold validate
  rw [if_neg h.1, if_neg h.2]

theorem stored_terminator_last (s : State) (c : Nat) (hc : isTerm c)
    (hlt : s.BufIndex < BUFFER_SIZE - 1) :
    (UART0_ISR s c).1.BufReady = true ∧ ¬ missing_terminator (UART0_ISR s c).1 := by
  rw [UART0_ISR_store s c (accepted_of_term c hc) hlt]
  refine ⟨by simp [hc], ?_⟩
  rintro ⟨_, h2⟩
  apply h2
  show wr s.Buffer s.BufIndex c (s.BufIndex + 1 - 1) = 13 ∨
    wr s.Buffer s.BufIndex c (s.BufIndex + 1 - 1) = 61
  rw [Nat.add_sub_cancel, wr_same]
  unfold isTerm at hc
  omega

theorem ready_invariant (cs : List Nat) :
    (assemble State.init cs).1.BufReady = true ↔
      ∃ k, k < (assemble State.init cs).1.BufIndex ∧
        isTerm ((assemble State.init cs).1.Buffer k) := by
  induction cs using List.reverseRecOn with
  | nil =>
    show false = true ↔ ∃ k, k < 0 ∧ isTerm (0 : Nat)
    constructor
    · intro h; cases h
    · rintro ⟨k, hk, _⟩; omega
  | append_singleton cs c ih =>
    rw [assemble_snoc]
    rcases UART0_ISR_cases (assemble State.init cs).1 c with ⟨_, _, he⟩ | he
    · rw [he]
      show ((assemble State.init cs).1.BufReady || decide (isTerm c)) = true ↔
        ∃ k, k < (assemble State.init cs).1.BufIndex + 1 ∧
          isTerm (wr (assemble State.init cs).1.Buffer (assemble State.init cs).1.BufIndex c k)
      rw [Bool.or_eq_true, ih, decide_eq_true_iff]
      constructor
      · rintro (⟨k, hk, ht⟩ | ht)
        · exact ⟨k, by omega, by rw [wr_other _ _ _ _ (by omega)]; exact ht⟩
        · exact ⟨_, Nat.lt_succ_self _, by rw [wr_same]; exact ht⟩
      · rintro ⟨k, hk, ht⟩
        by_cases hkn : k = (assemble State.init cs).1.BufIndex
        · rw [hkn, wr_same] at ht
          exact Or.inr ht
        · rw [wr_other _ _ _ _ hkn] at ht
          exact Or.inl ⟨k, by omega, ht⟩
    · rw [he]
      exact ih

set_option maxRecDepth 8000 in
/-- C18, as the claim states it, fails: after `1`, `=`, `2` from reset
`BufReady` is set and the last stored byte is `2`; `process_input` then
leaves through the missing-terminator branch and answers `ERROR`. -/
theorem ready_with_digit_last :
    (assemble State.init [49, 61, 50]).1.BufReady = true ∧
      (assemble State.init [49, 61, 50]).1.BufIndex = 3 ∧
      (assemble State.init [49, 61, 50]).1.Buffer 2 = 50 ∧
      missing_terminator (assemble State.init [49, 61, 50]).1 ∧
      process_input 13 ⟨0, fun _ => 0⟩ (assemble State.init [49, 61, 50]).1 = some ERROR_MSG := by
  decide

/-- C18, amended. In every state reached from reset by receive interrupts
alone, `BufReady` is set exactly when one of the stored bytes
`Buffer[0 .. BufIndex)` is `=` or CR.  Right after an interrupt that stores
a terminator, so in particular right after the one that turns `BufReady`
from clear to set, the last stored byte `Buffer[BufIndex-1]` is that
terminator and the missing-terminator branch of `process_input` is not
taken. -/
theorem ready_iff_terminator_stored (cs : List Nat) (c : Nat) :
    ((assemble State.init cs).1.BufReady = true ↔
      ∃ k, k < (assemble State.init cs).1.BufIndex ∧
        isTerm ((assemble State.init cs).1.Buffer k)) ∧
    (isTerm c → (assemble State.init cs).1.BufIndex < BUFFER_SIZE - 1 →
      (UART0_ISR (assemble State.init cs).1 c).1.BufReady = true ∧
      ¬ missing_terminator (UART0_ISR (assemble State.init cs).1 c).1) ∧
    ((assemble State.init cs).1.BufReady = false →
      (UART0_ISR (assemble State.init cs).1 c).1.BufReady = true →
      ¬ missing_terminator (UART0_ISR (assemble State.init cs).1 c).1) := by
  refine ⟨ready_invariant cs, stored_terminator_last _ c, ?_⟩
  intro h0 h1
  rcases UART0_ISR_cases (assemble State.init cs).1 c with ⟨_, hlt, he⟩ | he
  · have ht : isTerm c := by
      rw [he] at h1
      have h2 : ((assemble State.init cs).1.BufReady || decide (isTerm c)) = true := h1
      rw [h0] at h2
      simpa using h2
    exact (stored_terminator_last _ c ht hlt).2
  · rw [he, h0] at h1
    cases h1

set_option maxRecDepth 8000 in
theorem ready_iff_terminator_stored_witness :
    (UART0_ISR (assemble State.init [49, 50, 43, 55]).1 61).1.BufReady = true ∧
      ¬ missing_terminator (UART0_ISR (assemble State.init [49, 50, 43, 55]).1 61).1 :=
  (ready_iff_terminator_stored [49, 50, 43, 55] 61).2.1 (by decide) (by decide)

/-! ## The operator at the `switch` -/

theorem scan_op (B : Mem) (op0 : Int) : ∀ (n : Nat) (st : Scan),
    scan B n op0 = some st → st.op_found = true →
    (st.op = 43 ∨ st.op = 45 ∨ st.op = 42 ∨ st.op = 47) ∧ st.op = schar (B st.op_pos) := by
  intro n
  induction n with
  | zero =>
    intro st h hf
    have : st = ⟨0, false, 0, 0, op0⟩ := (Option.some.inj h).symm
    subst this
    cases hf
  | succ n ih =>
    intro st2 h hf
    rw [scan_succ] at h
    cases hs : scan B n op0 with
    | none => rw [hs] at h; cases h
    | some st =>
      rw [hs] at h
      have hbody : scan_body B n st = some st2 := h
      simp only [scan_body] at hbody
      split_ifs at hbody with h1 h2 h3
      · have := Option.some.inj hbody
        subst this
        exact ih st hs h2
      · have := Option.some.inj hbody
        subst this
        exact absurd hf h2
      · have := Option.some.inj hbody
        subst this
        exact ⟨h3.1, rfl⟩

theorem scan_body_forget (B : Mem) (i : Nat) (b : Int) (st : Scan) :
    scan_body B i (if st.op_found = true then st else { st with op := b }) =
      (scan_body B i st).map (fun x => if x.op_found = true then x else { x with op := b }) := by
  obtain ⟨p, f, l1, l2, o⟩ := st
  cases f
  · simp only [scan_body, Bool.false_eq_true, if_false, not_false_eq_true, if_true, true_and]
    split_ifs <;> simp
  · simp only [scan_body, if_true, not_true_eq_false, if_false, false_and, and_false]
    split_ifs <;> simp

theorem scan_forget (B : Mem) (a b : Int) : ∀ n,
    scan B n b =
      (scan B n a).map (fun x => if x.op_found = true then x else { x with op := b }) := by
  intro n
  induction n with
  | zero => rfl
  | succ n ih =>
    rw [scan_succ, scan_succ, ih]
    cases scan B n a with
    | none => rfl
    | some st => exact scan_body_forget B n b st

theorem validate_forget (s : State) (a b : Int) : validate s b = validate s a := by
  unfold validate
  rw [scan_forget s.Buffer a b]
  cases scan s.Buffer (s.BufIndex - 1) a with
  | none => rfl
  | some st =>
    obtain ⟨p, f, l1, l2, o⟩ := st
    cases f <;> simp

/-- C19. Whatever the buffer and its length, when `process_input` reaches
the `switch`, `op` holds a character the scan read from the buffer at
`op_pos`, one of `+`, `-`, `*`, `/`: the only `ERROR` the `switch` can send
is the one of a division by zero, never the one of `default`, and what
`op` held before the scan has no influence on the checks or on what is
transmitted. -/
theorem op_assigned_at_switch (fuel : Nat) (u : Uninit) (s : State) (st : Scan)
    (hv : validate s u.op = some st) :
    (st.op = 43 ∨ st.op = 45 ∨ st.op = 42 ∨ st.op = 47) ∧
    st.op = schar (s.Buffer st.op_pos) ∧
    (∀ a b, calculate st.op a b = .error ERROR_MSG → st.op = 47 ∧ b = 0) ∧
    (∀ op1, validate s op1 = some st) ∧
    (∀ op1, process_input fuel ⟨op1, u.out⟩ s = process_input fuel u s) := by
  have hscan : ∃ n, scan s.Buffer n u.op = some st ∧ st.op_found = true := by
    unfold validate at hv
    split_ifs at hv with h0 h1
    cases hs : scan s.Buffer (s.BufIndex - 1) u.op with
    | none => rw [hs] at hv; cases hv
    | some st2 =>
      rw [hs] at hv
      simp only at hv
      split_ifs at hv with h2
      have := Option.some.inj hv
      subst this
      refine ⟨_, hs, ?_⟩
      by_contra hc
      exact h2 (Or.inl hc)
  obtain ⟨n, hs, hf⟩ := hscan
  have hop := scan_op s.Buffer u.op n st hs hf
  refine ⟨hop.1, hop.2, ?_, fun op1 => by rw [validate_forget s u.op op1]; exact hv, ?_⟩
  · intro a b hc
    unfold calculate at hc
    rcases hop.1 with h | h | h | h
    · rw [h] at hc
      rw [if_pos rfl] at hc
      split_ifs at hc
      exact absurd (Except.error.inj hc) (by decide)
    · rw [h] at hc
      rw [if_neg (by decide), if_pos rfl] at hc
      split_ifs at hc
      exact absurd (Except.error.inj hc) (by decide)
    · rw [h] at hc
      rw [if_neg (by decide), if_neg (by decide), if_pos rfl] at hc
      split_ifs at hc
      exact absurd (Except.error.inj hc) (by decide)
    · rw [h] at hc
      rw [if_neg (by decide), if_neg (by decide), if_neg (by decide), if_pos rfl] at hc
      split_ifs at hc with hb
      exact ⟨h, hb⟩
  · intro op1
    unfold process_input
    rw [validate_forget s u.op op1]

theorem op_assigned_at_switch_witness :
    validate (lineState [49, 50, 43, 55, 61] true) 99 = some ⟨2, true, 2, 1, 43⟩ ∧
      process_input 13 ⟨99, fun _ => 0⟩ (lineState [49, 50, 43, 55, 61] true) =
        process_input 13 ⟨0, fun _ => 0⟩ (lineState [49, 50, 43, 55, 61] true) :=
  ⟨(op_assigned_at_switch 13 ⟨0, fun _ => 0⟩ (lineState [49, 50, 43, 55, 61] true)
      ⟨2, true, 2, 1, 43⟩ (by decide)).2.2.2.1 99,
    (op_assigned_at_switch 13 ⟨0, fun _ => 0⟩ (lineState [49, 50, 43, 55, 61] true)
      ⟨2, true, 2, 1, 43⟩ (by decide)).2.2.2.2 99⟩

/-! ## The stores of `process_input` and the globals -/

/-- In the path that formats a result, what `process_input` transmits is
what `send_string` reads from the memory `process_input_out` returns. -/
theorem process_input_sends_out (fuel : Nat) (u : Uninit) (s : State) (st : Scan) (r : Nat)
    (hv : validate s u.op = some st)
    (hc : calculate st.op (operand1 s st) (operand2 s st) = .ok r) :
    process_input fuel u s = (process_input_out fuel u s).bind (send_string fuel) := by
  unfold process_input process_input_out
  rw [hv]
  simp only
  rw [hc]
  simp only
  cases format_result fuel r u.out with
  | none => rfl
  | some p => rfl

/-- Whatever the globals hold, `process_input` changes no byte of data
memory past offset 12 from `out`, and it changes the byte at offset 12, the
first one after the 12 slots of `out`, only when it formats a result of ten
digits. -/
theorem process_input_stores (fuel : Nat) (hf : 13 ≤ fuel) (u : Uninit) (s : State) :
    ∃ m, process_input_out fuel u s = some m ∧
      (∀ k, 12 < k → m k = u.out k) ∧
      (m 12 ≠ u.out 12 →
        ∃ st r, validate s u.op = some st ∧
          calculate st.op (operand1 s st) (operand2 s st) = .ok r ∧ 1000000000 ≤ r) := by
  unfold process_input_out
  cases hv : validate s u.op with
  | none => exact ⟨u.out, rfl, fun _ _ => rfl, fun h => absurd rfl h⟩
  | some st =>
    simp only
    cases hc : calculate st.op (operand1 s st) (operand2 s st) with
    | error msg => exact ⟨u.out, rfl, fun _ _ => rfl, fun h => absurd rfl h⟩
    | ok r =>
      simp only
      have hr := calculate_ok_lt _ _ _ r (str_to_ulong_lt _ _) hc
      obtain ⟨idx, out, h1, _, _, h4, h5, h6⟩ := format_result_stores fuel r hr hf u.out
      rw [h1]
      refine ⟨out, rfl, fun k hk => h6 k (by omega), fun hne => ⟨st, r, rfl, hc, ?_⟩⟩
      by_contra hlt
      have hidx : idx < 12 := by
        rcases Nat.lt_or_ge idx 12 with h | h
        · exact h
        · exact absurd (h5.mp (by omega)) hlt
      exact hne (h6 12 hidx)

end Calc
